import Mathlib

/-!
# Verification of the reference-crdts sequence-CRDT core

A shallow embedding of `src/crdts.ts`: the shared `Item`/`Doc` data model,
the lookup helpers, the local operations, the four integration algorithms
(YjsMod, Yjs classic, Automerge-style, Sync9) and `mergeInto`.

Modelling conventions:
* TypeScript functions that mutate a `Doc` and may `throw` become pure
  functions returning `Except (Err × Doc T) (Doc T)`; the error case carries
  the document state at the moment of the throw (in JS, mutations performed
  before a throw persist in the caller's object).
* List indices that can be the root sentinel `-1` are `Int`.
* `doc.length` is `Int` (a JS number that is decremented without a guard);
  sequence numbers are `Nat` (the spec declares them non-negative and the
  code asserts `seq >= 0`).
* The JS `Record<string, number>` version map is an association list with
  update-in-place-or-append semantics.
-/

namespace Crdt

abbrev Agent := String

/-- `Id = [agent, seq]` from `crdts.ts`. -/
abbrev Id := Agent × Nat

/-- `Version = Record<string, number>`: last seen seq for each agent. -/
abbrev Version := List (Agent × Nat)

/-- Reading `version[agent]` (returns `none` for an absent agent). -/
def vget (v : Version) (a : Agent) : Option Nat :=
  v.lookup a

/-- Writing `version[agent] = seq` (JS record update: replace or append). -/
def vset : Version → Agent → Nat → Version
  | [], a, n => [(a, n)]
  | (k, m) :: rest, a, n =>
    if k = a then (a, n) :: rest else (k, m) :: vset rest a n

/-- The union item shape shared by all algorithms (`Item<T>` in `crdts.ts`). -/
structure Item (T : Type) where
  content : Option T
  id : Id
  originLeft : Option Id
  originRight : Option Id
  seq : Nat
  insertAfter : Bool
  isDeleted : Bool
deriving DecidableEq, Repr

/-- `Doc<T>` from `crdts.ts`. -/
structure Doc (T : Type) where
  content : List (Item T)
  version : Version
  length : Int
  maxSeq : Nat
deriving DecidableEq, Repr

/-- `newDoc` from `crdts.ts`. -/
def newDoc {T : Type} : Doc T :=
  { content := [], version := [], length := 0, maxSeq := 0 }

/-- The error kinds thrown by the core (all JS `throw`s). -/
inductive Err
  | outOfOrder
  | itemNotFound
  | positionOutOfRange
  | typeError
  | assertFailed
deriving DecidableEq, Repr

/-- `idEq2(a, agent, seq)`; the item ids it is applied to are never null. -/
def idEq2 (a : Id) (agent : Agent) (seq : Nat) : Bool :=
  a.1 == agent && a.2 == seq

/-- `idEq(a, b)` on nullable ids. -/
def idEq (a b : Option Id) : Bool :=
  match a, b with
  | none, none => true
  | some x, some y => x.1 == y.1 && x.2 == y.2
  | _, _ => false

/-- The match predicate used by `findItem2` both on the hint item and in
`findIndex`: `(!atEnd && idEq2 ..) || (content != null && atEnd && idEq2 ..)`. -/
def findPred (atEnd : Bool) (agent : Agent) (seq : Nat) (it : Item T) : Bool :=
  (!atEnd && idEq2 it.id agent seq) || (it.content.isSome && atEnd && idEq2 it.id agent seq)

/-- `findItem2(doc, needle, atEnd, idx_hint)`: `-1` for the root needle,
otherwise the index of the matching item, first inspecting the hint. -/
def findItem2 (doc : Doc T) (needle : Option Id) (atEnd : Bool := false)
    (idx_hint : Int := -1) : Except Err Int :=
  match needle with
  | none => .ok (-1)
  | some (agent, seq) =>
    let fallback : Except Err Int :=
      match (doc.content.findIdx? (findPred atEnd agent seq)) with
      | some idx => .ok idx
      | none => .error .itemNotFound
    if h : 0 ≤ idx_hint ∧ idx_hint < (doc.content.length : Int) then
      let hint_item := doc.content.get ⟨idx_hint.toNat, by omega⟩
      if findPred atEnd agent seq hint_item then .ok idx_hint
      else fallback
    else fallback

/-- `findItem(doc, needle, idx_hint)`. -/
def findItem (doc : Doc T) (needle : Option Id) (idx_hint : Int := -1) : Except Err Int :=
  findItem2 doc needle false idx_hint

/-- The loop of `findItemAtPos`, walking the content list and counting only
visible items; `i` is the index of the head of the remaining list. -/
def findItemAtPosAux (stick_end : Bool) : List (Item T) → Nat → Nat → Except Err Nat
  | [], pos, i => if pos = 0 then .ok i else .error .positionOutOfRange
  | item :: rest, pos, i =>
    if stick_end && pos == 0 then .ok i
    else if item.isDeleted || item.content.isNone then
      findItemAtPosAux stick_end rest pos (i + 1)
    else if pos = 0 then .ok i
    else findItemAtPosAux stick_end rest (pos - 1) (i + 1)

/-- `findItemAtPos(doc, pos, stick_end)`. -/
def findItemAtPos (doc : Doc T) (pos : Nat) (stick_end : Bool := false) : Except Err Nat :=
  findItemAtPosAux stick_end doc.content pos 0

/-- `localDelete(doc, agent, pos)`; `doc.content[i]` being `undefined`
(reading `.isDeleted` of it throws a `TypeError`) is the `typeError` case. -/
def localDelete (doc : Doc T) (_agent : Agent) (pos : Nat) : Except (Err × Doc T) (Doc T) :=
  match findItemAtPos doc pos false with
  | .error e => .error (e, doc)
  | .ok i =>
    match doc.content[i]? with
    | none => .error (.typeError, doc)
    | some item =>
      if !item.isDeleted then
        .ok { doc with
              content := doc.content.set i { item with isDeleted := true },
              length := doc.length - 1 }
      else .ok doc

/-- `getArray(doc)`: the visible payload sequence. -/
def getArray (doc : Doc T) : List T :=
  (doc.content.filter (fun i => !i.isDeleted && i.content.isSome)).filterMap (·.content)

/-- `isInVersion(id, version)`. -/
def isInVersion (id : Option Id) (version : Version) : Bool :=
  match id with
  | none => true
  | some (a, s) =>
    match vget version a with
    | none => false
    | some v => s ≤ v

/-- `canInsertNow(op, doc)`: causal readiness of `op` with respect to `doc`. -/
def canInsertNow (op : Item T) (doc : Doc T) : Bool :=
  !isInVersion (some op.id) doc.version
    && (op.id.2 == 0 || isInVersion (some (op.id.1, op.id.2 - 1)) doc.version)
    && isInVersion op.originLeft doc.version
    && isInVersion op.originRight doc.version

/-- JS string comparison `a < b`: lexicographic on the character sequence
(written out explicitly so that it evaluates inside the kernel). -/
def charListLtb : List Char → List Char → Bool
  | _, [] => false
  | [], _ :: _ => true
  | c :: cs, d :: ds =>
    if c.toNat < d.toNat then true
    else if d.toNat < c.toNat then false
    else charListLtb cs ds

/-- `a < b` on agent ids, as JS compares the strings. -/
def agentLtb (a b : Agent) : Bool := charListLtb a.data b.data

/-- The type of the per-algorithm `integrate` functions. -/
abbrev IntegrateFn (T : Type) := Doc T → Item T → Int → Except (Err × Doc T) (Doc T)

/-! ## YjsMod integration (`integrateYjsMod`)

The TS `for (let i = destIdx; ; i++)` loops are embedded as structural
recursion over the still-unscanned suffix of `doc.content`: at every call
`rest = doc.content.drop i`, so `rest = []` is exactly the `i ===
doc.content.length` exit of the source loop. -/

/-- The scan loop of `integrateYjsMod`. `destIdx` is tracked only while not
scanning; the loop commits at the end of the document or at `right`. -/
def yjsModLoop (doc : Doc T) (N : Item T) (idx_hint left right : Int) :
    (rest : List (Item T)) → (scanning : Bool) → (destIdx i : Nat) → Except Err Nat
  | [], scanning, destIdx, i => .ok (if !scanning then i else destIdx)
  | other :: rest, scanning, destIdx, i =>
    let destIdx' := if !scanning then i else destIdx
    if (i : Int) = right then .ok destIdx'
    else do
      let oleft ← findItem doc other.originLeft (idx_hint - 1)
      let oright ← match other.originRight with
        | none => Except.ok (doc.content.length : Int)
        | some _ => findItem doc other.originRight idx_hint
      if oleft < left then .ok destIdx'
      else if oleft = left then
        if oright < right then
          yjsModLoop doc N idx_hint left right rest true destIdx' (i + 1)
        else if oright = right then
          if agentLtb N.id.1 other.id.1 then .ok destIdx'
          else yjsModLoop doc N idx_hint left right rest false destIdx' (i + 1)
        else yjsModLoop doc N idx_hint left right rest false destIdx' (i + 1)
      else yjsModLoop doc N idx_hint left right rest scanning destIdx' (i + 1)

/-- `integrateYjsMod(doc, newItem, idx_hint)`. -/
def integrateYjsMod (doc : Doc T) (newItem : Item T) (idx_hint : Int) :
    Except (Err × Doc T) (Doc T) :=
  let lastSeen : Int := match vget doc.version newItem.id.1 with
    | none => -1
    | some v => v
  if (newItem.id.2 : Int) ≠ lastSeen + 1 then .error (.outOfOrder, doc)
  else
    let doc1 := { doc with version := vset doc.version newItem.id.1 newItem.id.2 }
    let body : Except Err Nat := do
      let left ← findItem doc1 newItem.originLeft (idx_hint - 1)
      let right ← match newItem.originRight with
        | none => Except.ok (doc1.content.length : Int)
        | some _ => findItem doc1 newItem.originRight idx_hint
      yjsModLoop doc1 newItem idx_hint left right
        (doc1.content.drop (left + 1).toNat) false (left + 1).toNat (left + 1).toNat
    match body with
    | .error e => .error (e, doc1)
    | .ok destIdx =>
      .ok { doc1 with
            content := doc1.content.insertIdx destIdx newItem,
            length := if !newItem.isDeleted then doc1.length + 1 else doc1.length }

/-! ## Yjs classic integration (`integrateYjs`) -/

/-- The scan loop of `integrateYjs` (the classic case split). -/
def yjsLoop (doc : Doc T) (N : Item T) (idx_hint left right : Int) :
    (rest : List (Item T)) → (scanning : Bool) → (destIdx i : Nat) → Except Err Nat
  | [], scanning, destIdx, i => .ok (if !scanning then i else destIdx)
  | other :: rest, scanning, destIdx, i =>
    let destIdx' := if !scanning then i else destIdx
    if (i : Int) = right then .ok destIdx'
    else do
      let oleft ← findItem doc other.originLeft (idx_hint - 1)
      let oright ← match other.originRight with
        | none => Except.ok (doc.content.length : Int)
        | some _ => findItem doc other.originRight idx_hint
      if oleft < left then .ok destIdx'
      else if oleft = left then
        if agentLtb other.id.1 N.id.1 then
          yjsLoop doc N idx_hint left right rest false destIdx' (i + 1)
        else if oright = right then .ok destIdx'
        else yjsLoop doc N idx_hint left right rest true destIdx' (i + 1)
      else yjsLoop doc N idx_hint left right rest scanning destIdx' (i + 1)

/-- `integrateYjs(doc, newItem, idx_hint)`. -/
def integrateYjs (doc : Doc T) (newItem : Item T) (idx_hint : Int) :
    Except (Err × Doc T) (Doc T) :=
  let lastSeen : Int := match vget doc.version newItem.id.1 with
    | none => -1
    | some v => v
  if (newItem.id.2 : Int) ≠ lastSeen + 1 then .error (.outOfOrder, doc)
  else
    let doc1 := { doc with version := vset doc.version newItem.id.1 newItem.id.2 }
    let body : Except Err Nat := do
      let left ← findItem doc1 newItem.originLeft (idx_hint - 1)
      let right ← match newItem.originRight with
        | none => Except.ok (doc1.content.length : Int)
        | some _ => findItem doc1 newItem.originRight idx_hint
      yjsLoop doc1 newItem idx_hint left right
        (doc1.content.drop (left + 1).toNat) false (left + 1).toNat (left + 1).toNat
    match body with
    | .error e => .error (e, doc1)
    | .ok destIdx =>
      .ok { doc1 with
            content := doc1.content.insertIdx destIdx newItem,
            length := if !newItem.isDeleted then doc1.length + 1 else doc1.length }

/-! ## Automerge-style integration (`integrateAutomerge`) -/

/-- The scan loop of `integrateAutomerge`, including the `newItem.seq > o.seq`
fast-path break. The `assert(lostConflict)` of the `oparent > parent` branch
is the `assertFailed` error. At every call `rest = doc.content.drop destIdx`,
so `rest = []` is the `destIdx < doc.content.length` loop exit. -/
def amLoop (doc : Doc T) (N : Item T) (idx_hint parent : Int) :
    (rest : List (Item T)) → (lostConflict : Bool) → (destIdx : Nat) → Except Err Nat
  | [], _, destIdx => .ok destIdx
  | o :: rest, lostConflict, destIdx =>
    if N.seq > o.seq then .ok destIdx
    else do
      let oparent ← findItem doc o.originLeft (idx_hint - 1)
      if oparent < parent then .ok destIdx
      else if oparent = parent then
        if N.seq > o.seq then .ok destIdx
        else if N.seq = o.seq then
          if agentLtb N.id.1 o.id.1 then .ok destIdx
          else amLoop doc N idx_hint parent rest true (destIdx + 1)
        else amLoop doc N idx_hint parent rest true (destIdx + 1)
      else
        if lostConflict then amLoop doc N idx_hint parent rest lostConflict (destIdx + 1)
        else .error .assertFailed

/-- The same loop with the fast-path break removed (the variant studied by
the fast-path-equivalence claim). -/
def amLoopNoFast (doc : Doc T) (N : Item T) (idx_hint parent : Int) :
    (rest : List (Item T)) → (lostConflict : Bool) → (destIdx : Nat) → Except Err Nat
  | [], _, destIdx => .ok destIdx
  | o :: rest, lostConflict, destIdx => do
      let oparent ← findItem doc o.originLeft (idx_hint - 1)
      if oparent < parent then .ok destIdx
      else if oparent = parent then
        if N.seq > o.seq then .ok destIdx
        else if N.seq = o.seq then
          if agentLtb N.id.1 o.id.1 then .ok destIdx
          else amLoopNoFast doc N idx_hint parent rest true (destIdx + 1)
        else amLoopNoFast doc N idx_hint parent rest true (destIdx + 1)
      else
        if lostConflict then amLoopNoFast doc N idx_hint parent rest lostConflict (destIdx + 1)
        else .error .assertFailed

/-- `integrateAutomerge(doc, newItem, idx_hint)`. `assert(newItem.seq >= 0)`
holds by the `Nat` type of `seq`. -/
def integrateAutomerge (doc : Doc T) (newItem : Item T) (idx_hint : Int) :
    Except (Err × Doc T) (Doc T) :=
  let lastSeen : Int := match vget doc.version newItem.id.1 with
    | none => -1
    | some v => v
  if (newItem.id.2 : Int) ≠ lastSeen + 1 then .error (.outOfOrder, doc)
  else
    let doc1 := { doc with version := vset doc.version newItem.id.1 newItem.id.2 }
    let body : Except Err Nat := do
      let parent ← findItem doc1 newItem.originLeft (idx_hint - 1)
      amLoop doc1 newItem idx_hint parent
        (doc1.content.drop (parent + 1).toNat) false (parent + 1).toNat
    match body with
    | .error e => .error (e, doc1)
    | .ok destIdx =>
      .ok { doc1 with
            content := doc1.content.insertIdx destIdx newItem,
            maxSeq := if newItem.seq > doc1.maxSeq then newItem.seq else doc1.maxSeq,
            length := if !newItem.isDeleted then doc1.length + 1 else doc1.length }

/-- `integrateAutomerge` with the fast-path break removed. -/
def integrateAutomergeNoFast (doc : Doc T) (newItem : Item T) (idx_hint : Int) :
    Except (Err × Doc T) (Doc T) :=
  let lastSeen : Int := match vget doc.version newItem.id.1 with
    | none => -1
    | some v => v
  if (newItem.id.2 : Int) ≠ lastSeen + 1 then .error (.outOfOrder, doc)
  else
    let doc1 := { doc with version := vset doc.version newItem.id.1 newItem.id.2 }
    let body : Except Err Nat := do
      let parent ← findItem doc1 newItem.originLeft (idx_hint - 1)
      amLoopNoFast doc1 newItem idx_hint parent
        (doc1.content.drop (parent + 1).toNat) false (parent + 1).toNat
    match body with
    | .error e => .error (e, doc1)
    | .ok destIdx =>
      .ok { doc1 with
            content := doc1.content.insertIdx destIdx newItem,
            maxSeq := if newItem.seq > doc1.maxSeq then newItem.seq else doc1.maxSeq,
            length := if !newItem.isDeleted then doc1.length + 1 else doc1.length }

/-! ## Sync9 integration (`integrateSync9`) -/

/-- The scan loop of `integrateSync9` (only reached when not splitting). -/
def sync9Loop (doc : Doc T) (N : Item T) (idx_hint parentIdx : Int) :
    (rest : List (Item T)) → (destIdx : Nat) → Except Err Nat
  | [], destIdx => .ok destIdx
  | other :: rest, destIdx => do
      let oparentIdx ← findItem2 doc other.originLeft other.insertAfter (idx_hint - 1)
      if oparentIdx < parentIdx then .ok destIdx
      else if oparentIdx = parentIdx then
        if agentLtb N.id.1 other.id.1 then .ok destIdx
        else sync9Loop doc N idx_hint parentIdx rest (destIdx + 1)
      else sync9Loop doc N idx_hint parentIdx rest (destIdx + 1)

/-- `integrateSync9(doc, newItem, idx_hint)`. -/
def integrateSync9 (doc : Doc T) (newItem : Item T) (idx_hint : Int) :
    Except (Err × Doc T) (Doc T) :=
  let lastSeen : Int := match vget doc.version newItem.id.1 with
    | none => -1
    | some v => v
  if (newItem.id.2 : Int) ≠ lastSeen + 1 then .error (.outOfOrder, doc)
  else
    let doc1 := { doc with version := vset doc.version newItem.id.1 newItem.id.2 }
    match findItem2 doc1 newItem.originLeft newItem.insertAfter (idx_hint - 1) with
    | .error e => .error (e, doc1)
    | .ok parentIdx =>
      let destIdx := (parentIdx + 1).toNat
      let splitCase : Bool := decide (0 ≤ parentIdx) && newItem.originLeft.isSome
        && !newItem.insertAfter
        && (match doc1.content[parentIdx.toNat]? with
            | some it => it.content.isSome
            | none => false)
      if splitCase then
        match doc1.content[parentIdx.toNat]? with
        | some parentItem =>
          let content1 := doc1.content.insertIdx parentIdx.toNat
            { parentItem with content := none }
          .ok { doc1 with
                content := content1.insertIdx destIdx newItem,
                length := if !newItem.isDeleted && newItem.content.isSome
                  then doc1.length + 1 else doc1.length }
        | none => .error (.typeError, doc1)
      else
        match sync9Loop doc1 newItem idx_hint parentIdx
            (doc1.content.drop destIdx) destIdx with
        | .error e => .error (e, doc1)
        | .ok dest =>
          .ok { doc1 with
                content := doc1.content.insertIdx dest newItem,
                length := if !newItem.isDeleted && newItem.content.isSome
                  then doc1.length + 1 else doc1.length }

/-! ## Local inserts -/

/-- `localInsert` (the variant shared by yjs, yjsMod and automerge),
parametrised by the algorithm's `integrate`. -/
def localInsert (integrate : IntegrateFn T) (doc : Doc T) (agent : Agent)
    (pos : Nat) (content : T) : Except (Err × Doc T) (Doc T) :=
  match findItemAtPos doc pos false with
  | .error e => .error (e, doc)
  | .ok i =>
    integrate doc
      { content := some content
        id := (agent, match vget doc.version agent with | none => 0 | some v => v + 1)
        isDeleted := false
        originLeft := if i = 0 then none else (doc.content[i - 1]?).map (·.id)
        originRight := (doc.content[i]?).map (·.id)
        insertAfter := true
        seq := doc.maxSeq + 1 }
      i

/-- The anchor-search loop of `localInsertSync9`: descend into the child run
of `parentIdBase`, stopping at the first item with content present. At every
call `rest = doc.content.drop i`. Returns the final scan index, `originLeft`
and `insertAfter`. -/
def sync9InsertScan :
    (rest : List (Item T)) → (i : Nat) → (parentIdBase originLeft : Option Id) →
    (insertAfter : Bool) → Nat × Option Id × Bool
  | [], i, _, originLeft, insertAfter => (i, originLeft, insertAfter)
  | nextItem :: rest, i, parentIdBase, originLeft, insertAfter =>
    if !idEq nextItem.originLeft parentIdBase then (i, originLeft, insertAfter)
    else if nextItem.content.isSome then (i, some nextItem.id, false)
    else sync9InsertScan rest (i + 1) (some nextItem.id) (some nextItem.id) false

/-- `localInsertSync9`. -/
def localInsertSync9 (integrate : IntegrateFn T) (doc : Doc T) (agent : Agent)
    (pos : Nat) (content : T) : Except (Err × Doc T) (Doc T) :=
  match findItemAtPos doc pos true with
  | .error e => .error (e, doc)
  | .ok i =>
    let parentIdBase := if i = 0 then none else (doc.content[i - 1]?).map (·.id)
    let s := sync9InsertScan (doc.content.drop i) i parentIdBase parentIdBase true
    integrate doc
      { content := some content
        id := (agent, match vget doc.version agent with | none => 0 | some v => v + 1)
        isDeleted := false
        originLeft := s.2.1
        insertAfter := s.2.2
        originRight := none
        seq := 0 }
      s.1

/-! ## Merging -/

/-- One pass of the `mergeInto` loop: scan `missing` in order, integrating
every causally-ready op (with the default hint `-1`) and nulling it out.
Returns the updated document, the updated list and the number merged. -/
def mergePass (integrate : IntegrateFn T) (dest : Doc T) :
    List (Option (Item T)) → Except (Err × Doc T) (Doc T × List (Option (Item T)) × Nat)
  | [] => .ok (dest, [], 0)
  | none :: rest => do
    let (d, l, k) ← mergePass integrate dest rest
    .ok (d, none :: l, k)
  | some op :: rest =>
    if canInsertNow op dest then
      match integrate dest op (-1) with
      | .error e => .error e
      | .ok dest' => do
        let (d, l, k) ← mergePass integrate dest' rest
        .ok (d, none :: l, k + 1)
    else do
      let (d, l, k) ← mergePass integrate dest rest
      .ok (d, some op :: l, k)

/-- The `while (remaining > 0)` loop of `mergeInto`; `assert(mergedOnThisPass)`
is the `assertFailed` error. The loop makes at most `remaining` passes (each
pass merges at least one op), so it is run with `fuel = remaining`; the
fuel-exhausted base case replays the `remaining == 0` exit test. -/
def mergeLoop (integrate : IntegrateFn T) :
    (fuel : Nat) → Doc T → List (Option (Item T)) → Nat → Except (Err × Doc T) (Doc T)
  | 0, dest, _, remaining =>
    if remaining = 0 then .ok dest else .error (.assertFailed, dest)
  | fuel + 1, dest, missing, remaining =>
    if remaining = 0 then .ok dest
    else
      match mergePass integrate dest missing with
      | .error e => .error e
      | .ok (dest', missing', merged) =>
        if merged = 0 then .error (.assertFailed, dest')
        else mergeLoop integrate fuel dest' missing' (remaining - merged)

/-- `mergeInto(algorithm, dest, src)`. -/
def mergeInto (integrate : IntegrateFn T) (dest src : Doc T) :
    Except (Err × Doc T) (Doc T) :=
  let missing := (src.content.filter
    (fun op => op.content.isSome && !isInVersion (some op.id) dest.version)).map
    (fun op => (some op : Option (Item T)))
  mergeLoop integrate missing.length dest missing missing.length

/-! ## Basic lemmas about the version map and lookup -/

theorem vget_vset_self (v : Version) (a : Agent) (n : Nat) :
    vget (vset v a n) a = some n := by
  induction v with
  | nil => simp [vget, vset, List.lookup]
  | cons p rest ih =>
    obtain ⟨k, m⟩ := p
    by_cases hk : k = a
    · subst hk
      simp [vget, vset, List.lookup]
    · simp only [vset, if_neg hk]
      simpa [vget, List.lookup, show (a == k) = false by
        simp [beq_eq_false_iff_ne]; exact fun h => hk h.symm] using ih

theorem vget_vset_other (v : Version) (a b : Agent) (n : Nat) (hab : a ≠ b) :
    vget (vset v a n) b = vget v b := by
  have hba : (b == a) = false := beq_eq_false_iff_ne.mpr (Ne.symm hab)
  induction v with
  | nil => simp [vget, vset, List.lookup, hba]
  | cons p rest ih =>
    obtain ⟨k, m⟩ := p
    by_cases hk : k = a
    · subst hk
      simp [vget, vset, List.lookup, hba]
    · simp only [vset, if_neg hk]
      by_cases hbk : (b == k) = true
      · simp [vget, List.lookup, hbk]
      · have hbk' : (b == k) = false := by
          cases hb : (b == k) <;> simp_all
        simp only [vget, List.lookup, hbk']
        simpa [vget, List.lookup] using ih

/-- `findItem2` only ever throws `ItemNotFound`. -/
theorem findItem2_error_eq {doc : Doc T} {needle : Option Id} {atEnd : Bool}
    {hint : Int} {e : Err} (h : findItem2 doc needle atEnd hint = .error e) :
    e = .itemNotFound := by
  unfold findItem2 at h
  rcases needle with _ | ⟨a, s⟩
  · simp at h
  · simp only at h
    split at h
    · split at h
      · simp at h
      · split at h <;> simp_all
    · split at h <;> simp_all

theorem findItem_error_eq {doc : Doc T} {needle : Option Id} {hint : Int} {e : Err}
    (h : findItem doc needle hint = .error e) : e = .itemNotFound := by
  exact findItem2_error_eq h

/-- The yjsMod scan loop never throws `OutOfOrder`. -/
theorem yjsModLoop_error_ne {doc : Doc T} {N : Item T} {idx_hint left right : Int}
    {rest : List (Item T)} {scanning : Bool} {destIdx i : Nat} {e : Err}
    (h : yjsModLoop doc N idx_hint left right rest scanning destIdx i = .error e) :
    e ≠ .outOfOrder := by
  induction rest generalizing scanning destIdx i with
  | nil => simp [yjsModLoop] at h
  | cons other rest ih =>
    rw [yjsModLoop] at h
    simp only at h
    generalize (if !scanning then i else destIdx) = D at h
    split at h
    · simp at h
    · rcases hol : findItem doc other.originLeft (idx_hint - 1) with e₁ | oleft <;>
        rw [hol] at h <;> simp only [Bind.bind, Except.bind] at h
      · have he : e₁ = e := by simpa using h
        have := findItem_error_eq hol
        rw [he] at this
        simp [this]
      · rcases hOR : other.originRight with _ | orid <;>
          rw [hOR] at h <;> simp only [Bind.bind, Except.bind] at h
        · split at h
          · simp at h
          · split at h
            · split at h
              · exact ih h
              · split at h
                · split at h
                  · simp at h
                  · exact ih h
                · exact ih h
            · exact ih h
        · rcases hor : findItem doc (some orid) idx_hint with e₂ | oright <;>
            rw [hor] at h <;> simp only [Bind.bind, Except.bind] at h
          · have he : e₂ = e := by simpa using h
            have := findItem_error_eq hor
            rw [he] at this
            simp [this]
          · split at h
            · simp at h
            · split at h
              · split at h
                · exact ih h
                · split at h
                  · split at h
                    · simp at h
                    · exact ih h
                  · exact ih h
              · exact ih h

/-- The classic-yjs scan loop never throws `OutOfOrder`. -/
theorem yjsLoop_error_ne {doc : Doc T} {N : Item T} {idx_hint left right : Int}
    {rest : List (Item T)} {scanning : Bool} {destIdx i : Nat} {e : Err}
    (h : yjsLoop doc N idx_hint left right rest scanning destIdx i = .error e) :
    e ≠ .outOfOrder := by
  induction rest generalizing scanning destIdx i with
  | nil => simp [yjsLoop] at h
  | cons other rest ih =>
    rw [yjsLoop] at h
    simp only at h
    generalize (if !scanning then i else destIdx) = D at h
    split at h
    · simp at h
    · rcases hol : findItem doc other.originLeft (idx_hint - 1) with e₁ | oleft <;>
        rw [hol] at h <;> simp only [Bind.bind, Except.bind] at h
      · have he : e₁ = e := by simpa using h
        have := findItem_error_eq hol
        rw [he] at this
        simp [this]
      · rcases hOR : other.originRight with _ | orid <;>
          rw [hOR] at h <;> simp only [Bind.bind, Except.bind] at h
        · split at h
          · simp at h
          · split at h
            · split at h
              · exact ih h
              · split at h
                · simp at h
                · exact ih h
            · exact ih h
        · rcases hor : findItem doc (some orid) idx_hint with e₂ | oright <;>
            rw [hor] at h <;> simp only [Bind.bind, Except.bind] at h
          · have he : e₂ = e := by simpa using h
            have := findItem_error_eq hor
            rw [he] at this
            simp [this]
          · split at h
            · simp at h
            · split at h
              · split at h
                · exact ih h
                · split at h
                  · simp at h
                  · exact ih h
              · exact ih h

/-- The automerge scan loop never throws `OutOfOrder`. -/
theorem amLoop_error_ne {doc : Doc T} {N : Item T} {idx_hint parent : Int}
    {rest : List (Item T)} {lostConflict : Bool} {destIdx : Nat} {e : Err}
    (h : amLoop doc N idx_hint parent rest lostConflict destIdx = .error e) :
    e ≠ .outOfOrder := by
  induction rest generalizing lostConflict destIdx with
  | nil => simp [amLoop] at h
  | cons o rest ih =>
    rw [amLoop] at h
    split at h
    · simp at h
    · rcases hol : findItem doc o.originLeft (idx_hint - 1) with e₁ | oparent <;>
        rw [hol] at h <;> simp only [Bind.bind, Except.bind] at h
      · have he : e₁ = e := by simpa using h
        have := findItem_error_eq hol
        rw [he] at this
        simp [this]
      · split at h
        · simp at h
        · split at h
          · split at h
            · split at h
              · simp at h
              · exact ih h
            · exact ih h
          · split at h
            · exact ih h
            · simp only [Except.error.injEq] at h
              rw [← h]
              simp

/-- The sync9 scan loop never throws `OutOfOrder`. -/
theorem sync9Loop_error_ne {doc : Doc T} {N : Item T} {idx_hint parentIdx : Int}
    {rest : List (Item T)} {destIdx : Nat} {e : Err}
    (h : sync9Loop doc N idx_hint parentIdx rest destIdx = .error e) :
    e ≠ .outOfOrder := by
  induction rest generalizing destIdx with
  | nil => simp [sync9Loop] at h
  | cons other rest ih =>
    rw [sync9Loop] at h
    rcases hol : findItem2 doc other.originLeft other.insertAfter (idx_hint - 1)
        with e₁ | oparentIdx <;> rw [hol] at h <;>
      simp only [Bind.bind, Except.bind] at h
    · have he : e₁ = e := by simpa using h
      have := findItem2_error_eq hol
      rw [he] at this
      simp [this]
    · split at h
      · simp at h
      · split at h
        · split at h
          · simp at h
          · exact ih h
        · exact ih h

/-! ## The seq precondition and version update (all four algorithms) -/

/-- `doc.version[a] ?? -1` as an integer. -/
def lastSeen (doc : Doc T) (a : Agent) : Int :=
  match vget doc.version a with
  | none => -1
  | some v => v

/-- The document resulting from a call, whether it succeeded or threw
(JS mutations persist past a throw). -/
def resultDoc : Except (Err × Doc T) (Doc T) → Doc T
  | .ok d => d
  | .error (_, d) => d

/-- The document after the version-vector update performed by `integrate`. -/
def bumpVersion (doc : Doc T) (N : Item T) : Doc T :=
  { doc with version := vset doc.version N.id.1 N.id.2 }

theorem integrateYjsMod_eq (doc : Doc T) (N : Item T) (hint : Int) :
    integrateYjsMod doc N hint =
      (if (N.id.2 : Int) ≠ lastSeen doc N.id.1 + 1 then .error (.outOfOrder, doc)
       else
        match (do
          let left ← findItem (bumpVersion doc N) N.originLeft (hint - 1)
          let right ← match N.originRight with
            | none => Except.ok (((bumpVersion doc N).content.length : Int))
            | some _ => findItem (bumpVersion doc N) N.originRight hint
          yjsModLoop (bumpVersion doc N) N hint left right
            ((bumpVersion doc N).content.drop (left + 1).toNat) false
            (left + 1).toNat (left + 1).toNat
         : Except Err Nat) with
        | .error e => .error (e, bumpVersion doc N)
        | .ok destIdx =>
          .ok { bumpVersion doc N with
                content := (bumpVersion doc N).content.insertIdx destIdx N,
                length := if !N.isDeleted then (bumpVersion doc N).length + 1
                  else (bumpVersion doc N).length }) :=
  rfl

theorem integrateYjs_eq (doc : Doc T) (N : Item T) (hint : Int) :
    integrateYjs doc N hint =
      (if (N.id.2 : Int) ≠ lastSeen doc N.id.1 + 1 then .error (.outOfOrder, doc)
       else
        match (do
          let left ← findItem (bumpVersion doc N) N.originLeft (hint - 1)
          let right ← match N.originRight with
            | none => Except.ok (((bumpVersion doc N).content.length : Int))
            | some _ => findItem (bumpVersion doc N) N.originRight hint
          yjsLoop (bumpVersion doc N) N hint left right
            ((bumpVersion doc N).content.drop (left + 1).toNat) false
            (left + 1).toNat (left + 1).toNat
         : Except Err Nat) with
        | .error e => .error (e, bumpVersion doc N)
        | .ok destIdx =>
          .ok { bumpVersion doc N with
                content := (bumpVersion doc N).content.insertIdx destIdx N,
                length := if !N.isDeleted then (bumpVersion doc N).length + 1
                  else (bumpVersion doc N).length }) :=
  rfl

theorem integrateAutomerge_eq (doc : Doc T) (N : Item T) (hint : Int) :
    integrateAutomerge doc N hint =
      (if (N.id.2 : Int) ≠ lastSeen doc N.id.1 + 1 then .error (.outOfOrder, doc)
       else
        match (do
          let parent ← findItem (bumpVersion doc N) N.originLeft (hint - 1)
          amLoop (bumpVersion doc N) N hint parent
            ((bumpVersion doc N).content.drop (parent + 1).toNat) false (parent + 1).toNat
         : Except Err Nat) with
        | .error e => .error (e, bumpVersion doc N)
        | .ok destIdx =>
          .ok { bumpVersion doc N with
                content := (bumpVersion doc N).content.insertIdx destIdx N,
                maxSeq := if N.seq > (bumpVersion doc N).maxSeq then N.seq
                  else (bumpVersion doc N).maxSeq,
                length := if !N.isDeleted then (bumpVersion doc N).length + 1
                  else (bumpVersion doc N).length }) :=
  rfl

theorem integrateAutomergeNoFast_eq (doc : Doc T) (N : Item T) (hint : Int) :
    integrateAutomergeNoFast doc N hint =
      (if (N.id.2 : Int) ≠ lastSeen doc N.id.1 + 1 then .error (.outOfOrder, doc)
       else
        match (do
          let parent ← findItem (bumpVersion doc N) N.originLeft (hint - 1)
          amLoopNoFast (bumpVersion doc N) N hint parent
            ((bumpVersion doc N).content.drop (parent + 1).toNat) false (parent + 1).toNat
         : Except Err Nat) with
        | .error e => .error (e, bumpVersion doc N)
        | .ok destIdx =>
          .ok { bumpVersion doc N with
                content := (bumpVersion doc N).content.insertIdx destIdx N,
                maxSeq := if N.seq > (bumpVersion doc N).maxSeq then N.seq
                  else (bumpVersion doc N).maxSeq,
                length := if !N.isDeleted then (bumpVersion doc N).length + 1
                  else (bumpVersion doc N).length }) :=
  rfl

theorem integrateSync9_eq (doc : Doc T) (N : Item T) (hint : Int) :
    integrateSync9 doc N hint =
      (if (N.id.2 : Int) ≠ lastSeen doc N.id.1 + 1 then .error (.outOfOrder, doc)
       else
        match findItem2 (bumpVersion doc N) N.originLeft N.insertAfter (hint - 1) with
        | .error e => .error (e, bumpVersion doc N)
        | .ok parentIdx =>
          if (decide (0 ≤ parentIdx) && N.originLeft.isSome && !N.insertAfter
              && (match (bumpVersion doc N).content[parentIdx.toNat]? with
                  | some it => it.content.isSome
                  | none => false)) then
            match (bumpVersion doc N).content[parentIdx.toNat]? with
            | some parentItem =>
              .ok { bumpVersion doc N with
                    content := ((bumpVersion doc N).content.insertIdx parentIdx.toNat
                      { parentItem with content := none }).insertIdx (parentIdx + 1).toNat N,
                    length := if !N.isDeleted && N.content.isSome
                      then (bumpVersion doc N).length + 1 else (bumpVersion doc N).length }
            | none => .error (.typeError, bumpVersion doc N)
          else
            match sync9Loop (bumpVersion doc N) N hint parentIdx
                ((bumpVersion doc N).content.drop (parentIdx + 1).toNat) (parentIdx + 1).toNat with
            | .error e => .error (e, bumpVersion doc N)
            | .ok dest =>
              .ok { bumpVersion doc N with
                    content := (bumpVersion doc N).content.insertIdx dest N,
                    length := if !N.isDeleted && N.content.isSome
                      then (bumpVersion doc N).length + 1 else (bumpVersion doc N).length }) :=
  rfl

theorem yjsModBody_error_ne {doc : Doc T} {N : Item T} {hint : Int} {e : Err}
    (h : (do
      let left ← findItem doc N.originLeft (hint - 1)
      let right ← match N.originRight with
        | none => Except.ok ((doc.content.length : Int))
        | some _ => findItem doc N.originRight hint
      yjsModLoop doc N hint left right (doc.content.drop (left + 1).toNat) false
        (left + 1).toNat (left + 1).toNat
     : Except Err Nat) = .error e) : e ≠ .outOfOrder := by
  rcases h1 : findItem doc N.originLeft (hint - 1) with e₁ | left <;>
    rw [h1] at h <;> simp only [Bind.bind, Except.bind] at h
  · have he : e₁ = e := by simpa using h
    have := findItem_error_eq h1
    rw [he] at this
    simp [this]
  · rcases hOR : N.originRight with _ | orid <;>
      rw [hOR] at h <;> simp only [Bind.bind, Except.bind] at h
    · exact yjsModLoop_error_ne h
    · rcases h2 : findItem doc (some orid) hint with e₂ | right <;>
        rw [h2] at h <;> simp only [Bind.bind, Except.bind] at h
      · have he : e₂ = e := by simpa using h
        have := findItem_error_eq h2
        rw [he] at this
        simp [this]
      · exact yjsModLoop_error_ne h

theorem yjsBody_error_ne {doc : Doc T} {N : Item T} {hint : Int} {e : Err}
    (h : (do
      let left ← findItem doc N.originLeft (hint - 1)
      let right ← match N.originRight with
        | none => Except.ok ((doc.content.length : Int))
        | some _ => findItem doc N.originRight hint
      yjsLoop doc N hint left right (doc.content.drop (left + 1).toNat) false
        (left + 1).toNat (left + 1).toNat
     : Except Err Nat) = .error e) : e ≠ .outOfOrder := by
  rcases h1 : findItem doc N.originLeft (hint - 1) with e₁ | left <;>
    rw [h1] at h <;> simp only [Bind.bind, Except.bind] at h
  · have he : e₁ = e := by simpa using h
    have := findItem_error_eq h1
    rw [he] at this
    simp [this]
  · rcases hOR : N.originRight with _ | orid <;>
      rw [hOR] at h <;> simp only [Bind.bind, Except.bind] at h
    · exact yjsLoop_error_ne h
    · rcases h2 : findItem doc (some orid) hint with e₂ | right <;>
        rw [h2] at h <;> simp only [Bind.bind, Except.bind] at h
      · have he : e₂ = e := by simpa using h
        have := findItem_error_eq h2
        rw [he] at this
        simp [this]
      · exact yjsLoop_error_ne h

theorem amBody_error_ne {doc : Doc T} {N : Item T} {hint : Int} {e : Err}
    (h : (do
      let parent ← findItem doc N.originLeft (hint - 1)
      amLoop doc N hint parent (doc.content.drop (parent + 1).toNat) false (parent + 1).toNat
     : Except Err Nat) = .error e) : e ≠ .outOfOrder := by
  rcases h1 : findItem doc N.originLeft (hint - 1) with e₁ | parent <;>
    rw [h1] at h <;> simp only [Bind.bind, Except.bind] at h
  · have he : e₁ = e := by simpa using h
    have := findItem_error_eq h1
    rw [he] at this
    simp [this]
  · exact amLoop_error_ne h

/-- Every algorithm's `integrate` rejected by the seq precondition throws
`OutOfOrder` with the document untouched. -/
theorem integrate_outOfOrder_of_bad_seq (g : IntegrateFn T)
    (hg : g = integrateYjsMod ∨ g = integrateYjs ∨ g = integrateAutomerge
      ∨ g = integrateSync9)
    (doc : Doc T) (N : Item T) (hint : Int)
    (hpre : (N.id.2 : Int) ≠ lastSeen doc N.id.1 + 1) :
    g doc N hint = .error (.outOfOrder, doc) := by
  rcases hg with rfl | rfl | rfl | rfl
  · rw [integrateYjsMod_eq, if_pos hpre]
  · rw [integrateYjs_eq, if_pos hpre]
  · rw [integrateAutomerge_eq, if_pos hpre]
  · rw [integrateSync9_eq, if_pos hpre]

/-- Every algorithm's `integrate` with the seq precondition satisfied never
throws `OutOfOrder`, and leaves `version[agent] = seq` in the resulting
document (also when it throws later, e.g. `ItemNotFound`). -/
theorem integrate_good_seq (g : IntegrateFn T)
    (hg : g = integrateYjsMod ∨ g = integrateYjs ∨ g = integrateAutomerge
      ∨ g = integrateSync9)
    (doc : Doc T) (N : Item T) (hint : Int)
    (hpre : (N.id.2 : Int) = lastSeen doc N.id.1 + 1) :
    (∀ d, g doc N hint ≠ .error (.outOfOrder, d))
    ∧ vget (resultDoc (g doc N hint)).version N.id.1 = some N.id.2 := by
  have hvb : vget (bumpVersion doc N).version N.id.1 = some N.id.2 :=
    vget_vset_self _ _ _
  rcases hg with rfl | rfl | rfl | rfl
  · rw [integrateYjsMod_eq, if_neg (not_not_intro hpre)]
    rcases hb : (do
      let left ← findItem (bumpVersion doc N) N.originLeft (hint - 1)
      let right ← match N.originRight with
        | none => Except.ok (((bumpVersion doc N).content.length : Int))
        | some _ => findItem (bumpVersion doc N) N.originRight hint
      yjsModLoop (bumpVersion doc N) N hint left right
        ((bumpVersion doc N).content.drop (left + 1).toNat) false
        (left + 1).toNat (left + 1).toNat
     : Except Err Nat) with e | destIdx
    · refine ⟨fun d hd => ?_, by simp [resultDoc, hvb]⟩
      simp only [Except.error.injEq, Prod.mk.injEq] at hd
      exact yjsModBody_error_ne hb hd.1
    · exact ⟨fun d hd => by simp at hd, by simpa [resultDoc] using hvb⟩
  · rw [integrateYjs_eq, if_neg (not_not_intro hpre)]
    rcases hb : (do
      let left ← findItem (bumpVersion doc N) N.originLeft (hint - 1)
      let right ← match N.originRight with
        | none => Except.ok (((bumpVersion doc N).content.length : Int))
        | some _ => findItem (bumpVersion doc N) N.originRight hint
      yjsLoop (bumpVersion doc N) N hint left right
        ((bumpVersion doc N).content.drop (left + 1).toNat) false
        (left + 1).toNat (left + 1).toNat
     : Except Err Nat) with e | destIdx
    · refine ⟨fun d hd => ?_, by simp [resultDoc, hvb]⟩
      simp only [Except.error.injEq, Prod.mk.injEq] at hd
      exact yjsBody_error_ne hb hd.1
    · exact ⟨fun d hd => by simp at hd, by simpa [resultDoc] using hvb⟩
  · rw [integrateAutomerge_eq, if_neg (not_not_intro hpre)]
    rcases hb : (do
      let parent ← findItem (bumpVersion doc N) N.originLeft (hint - 1)
      amLoop (bumpVersion doc N) N hint parent
        ((bumpVersion doc N).content.drop (parent + 1).toNat) false (parent + 1).toNat
     : Except Err Nat) with e | destIdx
    · refine ⟨fun d hd => ?_, by simp [resultDoc, hvb]⟩
      simp only [Except.error.injEq, Prod.mk.injEq] at hd
      exact amBody_error_ne hb hd.1
    · exact ⟨fun d hd => by simp at hd, by simpa [resultDoc] using hvb⟩
  · rw [integrateSync9_eq, if_neg (not_not_intro hpre)]
    rcases hf : findItem2 (bumpVersion doc N) N.originLeft N.insertAfter (hint - 1)
      with e | parentIdx
    · refine ⟨fun d hd => ?_, by simp [resultDoc, hvb]⟩
      simp only [Except.error.injEq, Prod.mk.injEq] at hd
      have := findItem2_error_eq hf
      rw [hd.1] at this
      simp at this
    · simp only
      split
      · rcases hp : (bumpVersion doc N).content[parentIdx.toNat]? with _ | parentItem
        · exact ⟨fun d hd => by simp at hd, by simp [resultDoc, hvb]⟩
        · exact ⟨fun d hd => by simp at hd, by simpa [resultDoc] using hvb⟩
      · rcases hl : sync9Loop (bumpVersion doc N) N hint parentIdx
            ((bumpVersion doc N).content.drop (parentIdx + 1).toNat) (parentIdx + 1).toNat
          with e | dest
        · refine ⟨fun d hd => ?_, by simp [resultDoc, hvb]⟩
          simp only [Except.error.injEq, Prod.mk.injEq] at hd
          exact sync9Loop_error_ne hl hd.1
        · exact ⟨fun d hd => by simp at hd, by simpa [resultDoc] using hvb⟩

/-- Claim C7: for every algorithm's `integrate`, every document and every
item `N`, the call fails with `OutOfOrder` iff
`N.id.seq ≠ (version[N.id.agent] ?? -1) + 1`; on that failure the document is
left entirely unchanged (the error carries the untouched document), and when
the precondition holds `version[N.id.agent]` is updated to `N.id.seq` in the
resulting document. -/
theorem integrate_outOfOrder_iff (g : IntegrateFn T)
    (hg : g = integrateYjsMod ∨ g = integrateYjs ∨ g = integrateAutomerge
      ∨ g = integrateSync9)
    (doc : Doc T) (N : Item T) (hint : Int) :
    ((∃ d, g doc N hint = .error (.outOfOrder, d)) ↔
      (N.id.2 : Int) ≠ lastSeen doc N.id.1 + 1)
    ∧ (∀ d, g doc N hint = .error (.outOfOrder, d) → d = doc)
    ∧ ((N.id.2 : Int) = lastSeen doc N.id.1 + 1 →
        vget (resultDoc (g doc N hint)).version N.id.1 = some N.id.2) := by
  by_cases hpre : (N.id.2 : Int) = lastSeen doc N.id.1 + 1
  · obtain ⟨hne, hv⟩ := integrate_good_seq g hg doc N hint hpre
    exact ⟨⟨fun ⟨d, hd⟩ => absurd hd (hne d), fun hc => absurd hpre hc⟩,
      fun d hd => absurd hd (hne d), fun _ => hv⟩
  · have heq := integrate_outOfOrder_of_bad_seq g hg doc N hint hpre
    refine ⟨⟨fun _ => hpre, fun _ => ⟨doc, heq⟩⟩, fun d hd => ?_, fun hp => absurd hp hpre⟩
    rw [heq] at hd
    simp only [Except.error.injEq, Prod.mk.injEq] at hd
    exact hd.2.symm

/-- Witness for the C7 theorem at a concrete input: integrating `("A", 1)`
into a fresh document (which has seen nothing from agent `A`) fails with
`OutOfOrder` carrying the unchanged document. -/
theorem integrate_outOfOrder_iff_witness :
    ∃ d, integrateYjsMod (T := String)
      newDoc
      { content := some "x", id := ("A", 1), originLeft := none,
        originRight := none, seq := 0, insertAfter := true, isDeleted := false }
      (-1) = .error (.outOfOrder, d) :=
  (integrate_outOfOrder_iff integrateYjsMod (Or.inl rfl) newDoc
    { content := some "x", id := ("A", 1), originLeft := none,
      originRight := none, seq := 0, insertAfter := true, isDeleted := false }
    (-1)).1.mpr (by decide)

/-! ## The visible-position resolver and the delete boundary -/

/-- Visibility of an item: content present and not deleted. -/
def visibleB (it : Item T) : Bool := !it.isDeleted && it.content.isSome

theorem findItemAtPosAux_cons_false (item : Item T) (rest : List (Item T))
    (pos i : Nat) :
    findItemAtPosAux false (item :: rest) pos i =
      (if item.isDeleted || item.content.isNone then
        findItemAtPosAux false rest pos (i + 1)
       else if pos = 0 then .ok i
       else findItemAtPosAux false rest (pos - 1) (i + 1)) := by
  simp [findItemAtPosAux]

theorem skip_eq_false_iff (it : Item T) :
    (it.isDeleted || it.content.isNone) = false ↔ visibleB it = true := by
  cases hd : it.isDeleted <;> rcases hc : it.content with _ | x <;>
    simp [visibleB, hd, hc]

theorem countP_visibleB_cons (item : Item T) (rest : List (Item T)) :
    (item :: rest).countP visibleB =
      rest.countP visibleB + (if visibleB item then 1 else 0) := by
  simp [List.countP_cons]

theorem findItemAtPosAux_lt (l : List (Item T)) (pos i : Nat)
    (h : pos < l.countP visibleB) :
    ∃ j, ∃ hj : j < l.length, findItemAtPosAux false l pos i = .ok (i + j)
      ∧ visibleB (l.get ⟨j, hj⟩) = true := by
  induction l generalizing pos i with
  | nil => simp [List.countP_nil] at h
  | cons item rest ih =>
    rw [findItemAtPosAux_cons_false]
    rw [countP_visibleB_cons] at h
    by_cases hv : visibleB item = true
    · have h' : pos < rest.countP visibleB + 1 := by simpa [hv] using h
      rw [if_neg (by rw [(skip_eq_false_iff _).mpr hv]; simp)]
      rcases Nat.eq_zero_or_pos pos with hp | hp
      · subst hp
        exact ⟨0, by simp, by simp, by simpa using hv⟩
      · rw [if_neg (by omega)]
        obtain ⟨j, hj, heq, hvj⟩ := ih (pos - 1) (i + 1) (by omega)
        refine ⟨j + 1, by simpa using Nat.succ_lt_succ hj, ?_, by simpa using hvj⟩
        rw [heq]
        exact congrArg Except.ok (by omega)
    · have hskip : (item.isDeleted || item.content.isNone) = true := by
        rcases Bool.eq_false_or_eq_true (item.isDeleted || item.content.isNone)
          with hb | hb
        · exact hb
        · exact absurd ((skip_eq_false_iff _).mp hb) hv
      have h' : pos < rest.countP visibleB := by simpa [hv] using h
      rw [if_pos hskip]
      obtain ⟨j, hj, heq, hvj⟩ := ih pos (i + 1) h'
      refine ⟨j + 1, by simpa using Nat.succ_lt_succ hj, ?_, by simpa using hvj⟩
      rw [heq]
      exact congrArg Except.ok (by omega)

theorem findItemAtPosAux_ge (l : List (Item T)) (pos i : Nat)
    (h : pos ≥ l.countP visibleB) :
    findItemAtPosAux false l pos i =
      (if pos = l.countP visibleB then .ok (i + l.length)
       else .error .positionOutOfRange) := by
  induction l generalizing pos i with
  | nil =>
    simp only [findItemAtPosAux, List.countP_nil, List.length_nil, Nat.add_zero]
  | cons item rest ih =>
    rw [findItemAtPosAux_cons_false]
    rw [countP_visibleB_cons]
    rw [countP_visibleB_cons] at h
    by_cases hv : visibleB item = true
    · have h' : pos ≥ rest.countP visibleB + 1 := by simpa [hv] using h
      rw [if_neg (by rw [(skip_eq_false_iff _).mpr hv]; simp)]
      rw [if_neg (by omega : ¬pos = 0)]
      rw [ih (pos - 1) (i + 1) (by omega)]
      simp only [hv, if_true]
      by_cases hp : pos - 1 = rest.countP visibleB
      · rw [if_pos hp, if_pos (by omega)]
        simp only [List.length_cons]
        exact congrArg Except.ok (by omega)
      · rw [if_neg hp, if_neg (by omega)]
    · have hskip : (item.isDeleted || item.content.isNone) = true := by
        rcases Bool.eq_false_or_eq_true (item.isDeleted || item.content.isNone)
          with hb | hb
        · exact hb
        · exact absurd ((skip_eq_false_iff _).mp hb) hv
      have h' : pos ≥ rest.countP visibleB := by simpa [hv] using h
      rw [if_pos hskip]
      rw [ih pos (i + 1) h']
      simp only [hv, if_false, Nat.add_zero]
      by_cases hp : pos = rest.countP visibleB
      · rw [if_pos hp, if_pos (by simpa [hv] using hp)]
        simp only [List.length_cons]
        exact congrArg Except.ok (by omega)
      · rw [if_neg hp, if_neg (by simpa [hv] using hp)]

/-- Claim C10: `localDelete` with `pos` strictly below the visible length
finds a visible not-yet-deleted item, marks it deleted and decrements
`length`; with `pos` above the visible length it fails with
`PositionOutOfRange`; at exactly `pos = L`, `findItemAtPos` succeeds
returning `len(content)` and `localDelete` trips over the out-of-bounds item
access (a JS `TypeError`), not the documented `PositionOutOfRange`. -/
theorem localDelete_boundary (doc : Doc T) (agent : Agent) (pos : Nat) :
    (pos < doc.content.countP visibleB →
      ∃ j, ∃ hj : j < doc.content.length,
        findItemAtPos doc pos false = .ok j
        ∧ visibleB (doc.content.get ⟨j, hj⟩) = true
        ∧ localDelete doc agent pos =
            .ok { doc with
                  content := doc.content.set j
                    { doc.content.get ⟨j, hj⟩ with isDeleted := true },
                  length := doc.length - 1 })
    ∧ (pos > doc.content.countP visibleB →
        localDelete doc agent pos = .error (.positionOutOfRange, doc))
    ∧ (pos = doc.content.countP visibleB →
        findItemAtPos doc pos false = .ok doc.content.length
        ∧ localDelete doc agent pos = .error (.typeError, doc)
        ∧ Err.typeError ≠ Err.positionOutOfRange) := by
  refine ⟨fun hlt => ?_, fun hgt => ?_, fun heq => ?_⟩
  · obtain ⟨j, hj, hfind, hvis⟩ := findItemAtPosAux_lt doc.content pos 0 hlt
    simp only [Nat.zero_add] at hfind
    have hfind' : findItemAtPos doc pos false = .ok j := hfind
    refine ⟨j, hj, hfind', hvis, ?_⟩
    have hnd : (doc.content.get ⟨j, hj⟩).isDeleted = false := by
      simp [visibleB] at hvis
      exact hvis.1
    simp only [localDelete, hfind']
    rw [List.getElem?_eq_getElem hj]
    simp only [List.get_eq_getElem] at hnd ⊢
    simp [hnd]
  · have := findItemAtPosAux_ge doc.content pos 0 (by omega)
    rw [if_neg (by omega)] at this
    simp only [localDelete, findItemAtPos, this]
  · have := findItemAtPosAux_ge doc.content pos 0 (by omega)
    rw [if_pos heq] at this
    simp only [Nat.zero_add] at this
    refine ⟨this, ?_, by simp⟩
    simp only [localDelete, findItemAtPos]
    rw [this]
    have hnone : doc.content[doc.content.length]? = none :=
      List.getElem?_eq_none (Nat.le_refl _)
    simp [hnone]

/-- Witness for the C10 theorem on a one-item document: deleting at 0
succeeds, at 1 throws the type error, at 2 throws `PositionOutOfRange`. -/
theorem localDelete_boundary_witness :
    (localDelete
        (⟨[{ content := some "x", id := ("A", 0), originLeft := none,
             originRight := none, seq := 1, insertAfter := true,
             isDeleted := false }], [("A", 0)], 1, 1⟩ : Doc String) "A" 0).isOk
    ∧ localDelete
        (⟨[{ content := some "x", id := ("A", 0), originLeft := none,
             originRight := none, seq := 1, insertAfter := true,
             isDeleted := false }], [("A", 0)], 1, 1⟩ : Doc String) "A" 1
        = .error (.typeError,
          ⟨[{ content := some "x", id := ("A", 0), originLeft := none,
              originRight := none, seq := 1, insertAfter := true,
              isDeleted := false }], [("A", 0)], 1, 1⟩)
    ∧ localDelete
        (⟨[{ content := some "x", id := ("A", 0), originLeft := none,
             originRight := none, seq := 1, insertAfter := true,
             isDeleted := false }], [("A", 0)], 1, 1⟩ : Doc String) "A" 2
        = .error (.positionOutOfRange,
          ⟨[{ content := some "x", id := ("A", 0), originLeft := none,
              originRight := none, seq := 1, insertAfter := true,
              isDeleted := false }], [("A", 0)], 1, 1⟩) := by
  refine ⟨?_, ?_, ?_⟩
  · obtain ⟨j, hj, _, _, hdel⟩ := (localDelete_boundary
      (⟨[{ content := some "x", id := ("A", 0), originLeft := none,
           originRight := none, seq := 1, insertAfter := true,
           isDeleted := false }], [("A", 0)], 1, 1⟩ : Doc String) "A" 0).1
      (by decide)
    rw [hdel]
    rfl
  · exact ((localDelete_boundary _ "A" 1).2.2 (by decide)).2.1
  · exact (localDelete_boundary _ "A" 2).2.1 (by decide)

/-! ## Hint transparency of the lookup -/

theorem findIdx?_of_unique (p : α → Bool) (l : List α) (j : Nat) (hj : j < l.length)
    (hpj : p (l.get ⟨j, hj⟩) = true)
    (huniq : ∀ k, ∀ hk : k < l.length, p (l.get ⟨k, hk⟩) = true → k = j) :
    l.findIdx? p = some j := by
  induction l generalizing j with
  | nil => simp at hj
  | cons x xs ih =>
    rw [List.findIdx?_cons]
    rcases Nat.eq_zero_or_pos j with hj0 | hjpos
    · subst hj0
      rw [if_pos (by simpa using hpj)]
    · obtain ⟨j', rfl⟩ : ∃ j', j = j' + 1 := ⟨j - 1, by omega⟩
      have hpx : p x = false := by
        rcases Bool.eq_false_or_eq_true (p x) with hb | hb
        · have := huniq 0 (by simp) (by simpa using hb)
          omega
        · exact hb
      rw [if_neg (by simp [hpx])]
      rw [List.findIdx?_succ]
      have hrec : xs.findIdx? p = some j' := by
        refine ih j' (by simpa using hj) ?_ ?_
        · simpa using hpj
        · intro k hk hpk
          have := huniq (k + 1) (by simpa using Nat.succ_lt_succ hk)
            (by simpa using hpk)
          omega
      rw [hrec]
      simp

theorem findPred_id_eq {atEnd : Bool} {a : Agent} {s : Nat} {x : Item T}
    (h : findPred atEnd a s x = true) : x.id = (a, s) := by
  have : idEq2 x.id a s = true := by
    rcases Bool.eq_false_or_eq_true atEnd with hb | hb <;>
      simp [findPred, hb, idEq2] at h ⊢ <;> tauto
  simp [idEq2] at this
  exact Prod.ext this.1 this.2

/-- Claim C8 (amended): provided no two items of the document share an id,
`find_item2` with any hint returns exactly what it returns without a hint —
the hint is outcome-invisible. (The unrestricted claim is refuted by
`findItem2_hint_changes_result`: after a sync9 split two items share an id.) -/
theorem findItem2_hint_transparent (doc : Doc T) (needle : Option Id)
    (atEnd : Bool) (hint : Int)
    (hnodup : (doc.content.map (·.id)).Nodup) :
    findItem2 doc needle atEnd hint = findItem2 doc needle atEnd (-1) := by
  rcases needle with _ | ⟨a, s⟩
  · rfl
  · show findItem2 doc (some (a, s)) atEnd hint = _
    rw [findItem2, findItem2]
    simp only
    rw [dif_neg (by omega : ¬(0 ≤ (-1 : Int) ∧ (-1 : Int) < (doc.content.length : Int)))]
    split
    · rename_i hcond
      split
      · rename_i hpred
        have hj : hint.toNat < doc.content.length := by omega
        have huniq : ∀ k, ∀ hk : k < doc.content.length,
            findPred atEnd a s (doc.content.get ⟨k, hk⟩) = true → k = hint.toNat := by
          intro k hk hpk
          have hid : (doc.content.get ⟨k, hk⟩).id = (doc.content.get ⟨hint.toNat, hj⟩).id := by
            rw [findPred_id_eq hpk, findPred_id_eq hpred]
          have hmap : (doc.content.map (·.id)).get ⟨k, by simpa using hk⟩ =
              (doc.content.map (·.id)).get ⟨hint.toNat, by simpa using hj⟩ := by
            simpa using hid
          have hinj := (List.Nodup.get_inj_iff hnodup).mp hmap
          simpa using congrArg Fin.val hinj
        rw [findIdx?_of_unique _ _ hint.toNat hj hpred huniq]
        exact congrArg Except.ok (by omega)
      · rfl
    · rfl

/-- Claim C8 counterexample: on a document in which a content-absent
placeholder (index 0) and a content-bearing item (index 1) share the id
`("A", 0)` — the shape a sync9 split produces — `find_item2` with hint `1`
returns index 1 while the hint-less call returns index 0. -/
theorem findItem2_hint_changes_result :
    findItem2 (⟨[
        { content := none, id := ("A", 0), originLeft := none,
          originRight := none, seq := 0, insertAfter := true, isDeleted := false },
        { content := some "x", id := ("A", 0), originLeft := none,
          originRight := none, seq := 0, insertAfter := false, isDeleted := false }],
        [("A", 0)], 1, 0⟩ : Doc String) (some ("A", 0)) false 1 = .ok 1
    ∧ findItem2 (⟨[
        { content := none, id := ("A", 0), originLeft := none,
          originRight := none, seq := 0, insertAfter := true, isDeleted := false },
        { content := some "x", id := ("A", 0), originLeft := none,
          originRight := none, seq := 0, insertAfter := false, isDeleted := false }],
        [("A", 0)], 1, 0⟩ : Doc String) (some ("A", 0)) false (-1) = .ok 0 := by
  constructor <;> rfl

/-- Witness for the amended C8 theorem on a two-item document with distinct
ids, at hint `0` and needle `("B", 0)` (found at index 1). -/
theorem findItem2_hint_transparent_witness :
    findItem2 (⟨[
        { content := some "x", id := ("A", 0), originLeft := none,
          originRight := none, seq := 1, insertAfter := true, isDeleted := false },
        { content := some "y", id := ("B", 0), originLeft := none,
          originRight := none, seq := 2, insertAfter := true, isDeleted := false }],
        [("A", 0), ("B", 0)], 2, 2⟩ : Doc String) (some ("B", 0)) false 0
      = findItem2 (⟨[
        { content := some "x", id := ("A", 0), originLeft := none,
          originRight := none, seq := 1, insertAfter := true, isDeleted := false },
        { content := some "y", id := ("B", 0), originLeft := none,
          originRight := none, seq := 2, insertAfter := true, isDeleted := false }],
        [("A", 0), ("B", 0)], 2, 2⟩ : Doc String) (some ("B", 0)) false (-1) :=
  findItem2_hint_transparent _ _ _ _ (by decide)

/-! ## The sync9 split case -/

theorem insertIdx_eq_take_cons_drop (l : List α) (n : Nat) (a : α) (h : n ≤ l.length) :
    l.insertIdx n a = l.take n ++ a :: l.drop n := by
  induction l generalizing n with
  | nil =>
    have hn : n = 0 := by simpa using h
    subst hn
    simp [List.insertIdx]
  | cons x xs ih =>
    cases n with
    | zero => simp
    | succ n =>
      rw [List.insertIdx_succ_cons]
      simp only [List.take_succ_cons, List.drop_succ_cons, List.cons_append,
        List.cons.injEq, true_and]
      exact ih n (by simpa using h)

theorem insertIdx_append_cons (A : List α) (b x : α) (B : List α) :
    (A ++ b :: B).insertIdx (A.length + 1) x = A ++ b :: x :: B := by
  induction A with
  | nil => simp [List.insertIdx_succ_cons]
  | cons a A ih => simp [List.insertIdx_succ_cons, ih]

/-- Claim C6: when `N.originLeft` is non-root, `insertAfter` is false, and the
parent item (at `parentIdx = p`) has content present, `integrateSync9` takes
the split branch (no scan): the result is the old content with a content-
absent copy of the parent at index `p`, `N` at `p + 1`, and the original
parent immediately after; `length` grows iff `N`'s content is present and `N`
is not deleted. -/
theorem integrateSync9_split (doc : Doc T) (N : Item T) (hint : Int) (p : Nat)
    (hp : p < doc.content.length)
    (hpre : (N.id.2 : Int) = lastSeen doc N.id.1 + 1)
    (holeft : N.originLeft.isSome = true)
    (hafter : N.insertAfter = false)
    (hfind : findItem2 (bumpVersion doc N) N.originLeft N.insertAfter (hint - 1)
      = .ok (p : Int))
    (hcontent : (doc.content.get ⟨p, hp⟩).content.isSome = true) :
    integrateSync9 doc N hint = .ok
      { content := doc.content.take p ++
          { doc.content.get ⟨p, hp⟩ with content := none } :: N :: doc.content.drop p,
        version := vset doc.version N.id.1 N.id.2,
        length := if !N.isDeleted && N.content.isSome then doc.length + 1
          else doc.length,
        maxSeq := doc.maxSeq } := by
  rw [integrateSync9_eq, if_neg (not_not_intro hpre), hfind]
  have htoNat : ((p : Int)).toNat = p := by omega
  have hget : (bumpVersion doc N).content[((p : Int)).toNat]? =
      some (doc.content.get ⟨p, hp⟩) := by
    rw [htoNat]
    exact List.getElem?_eq_getElem hp
  have hcontent' : (doc.content.get ⟨p, hp⟩).content.isSome = true := hcontent
  simp only [hget]
  rw [if_pos (by
    simp only [Bool.and_eq_true, decide_eq_true_eq, Bool.not_eq_true']
    exact ⟨⟨⟨Int.natCast_nonneg p, holeft⟩, hafter⟩, hcontent'⟩)]
  have h1 : ((p : Int) + 1).toNat = p + 1 := by omega
  rw [h1]
  simp only [htoNat]
  have hsplice1 : List.insertIdx p
      { content := none, id := (doc.content.get ⟨p, hp⟩).id,
        originLeft := (doc.content.get ⟨p, hp⟩).originLeft,
        originRight := (doc.content.get ⟨p, hp⟩).originRight,
        seq := (doc.content.get ⟨p, hp⟩).seq,
        insertAfter := (doc.content.get ⟨p, hp⟩).insertAfter,
        isDeleted := (doc.content.get ⟨p, hp⟩).isDeleted }
      (bumpVersion doc N).content =
      doc.content.take p ++
        ({ content := none, id := (doc.content.get ⟨p, hp⟩).id,
           originLeft := (doc.content.get ⟨p, hp⟩).originLeft,
           originRight := (doc.content.get ⟨p, hp⟩).originRight,
           seq := (doc.content.get ⟨p, hp⟩).seq,
           insertAfter := (doc.content.get ⟨p, hp⟩).insertAfter,
           isDeleted := (doc.content.get ⟨p, hp⟩).isDeleted } : Item T)
          :: doc.content.drop p :=
    insertIdx_eq_take_cons_drop _ _ _ (Nat.le_of_lt hp)
  rw [hsplice1]
  have hlen : (doc.content.take p).length = p := by
    simp [List.length_take]
    omega
  have hsplice2 := insertIdx_append_cons (doc.content.take p)
    ({ content := none, id := (doc.content.get ⟨p, hp⟩).id,
       originLeft := (doc.content.get ⟨p, hp⟩).originLeft,
       originRight := (doc.content.get ⟨p, hp⟩).originRight,
       seq := (doc.content.get ⟨p, hp⟩).seq,
       insertAfter := (doc.content.get ⟨p, hp⟩).insertAfter,
       isDeleted := (doc.content.get ⟨p, hp⟩).isDeleted } : Item T)
    N (doc.content.drop p)
  rw [hlen] at hsplice2
  rw [hsplice2]
  rfl

/-- Witness for the C6 theorem: splitting the single content-bearing item of
a one-item document. -/
theorem integrateSync9_split_witness :
    integrateSync9
      (⟨[{ content := some "x", id := ("A", 0), originLeft := none,
           originRight := none, seq := 1, insertAfter := true,
           isDeleted := false }], [("A", 0)], 1, 1⟩ : Doc String)
      { content := some "y", id := ("B", 0), originLeft := some ("A", 0),
        originRight := none, seq := 0, insertAfter := false, isDeleted := false }
      0 = .ok
      { content :=
          ([{ content := some "x", id := ("A", 0), originLeft := none,
              originRight := none, seq := 1, insertAfter := true,
              isDeleted := false }] : List (Item String)).take 0 ++
          { content := none, id := ("A", 0), originLeft := none,
            originRight := none, seq := 1, insertAfter := true,
            isDeleted := false } ::
          { content := some "y", id := ("B", 0), originLeft := some ("A", 0),
            originRight := none, seq := 0, insertAfter := false,
            isDeleted := false } ::
          ([{ content := some "x", id := ("A", 0), originLeft := none,
              originRight := none, seq := 1, insertAfter := true,
              isDeleted := false }] : List (Item String)).drop 0,
        version := vset [("A", 0)] "B" 0,
        length := 2,
        maxSeq := 1 } := by
  have := integrateSync9_split
    (⟨[{ content := some "x", id := ("A", 0), originLeft := none,
         originRight := none, seq := 1, insertAfter := true,
         isDeleted := false }], [("A", 0)], 1, 1⟩ : Doc String)
    { content := some "y", id := ("B", 0), originLeft := some ("A", 0),
      originRight := none, seq := 0, insertAfter := false, isDeleted := false }
    0 0 (by decide) (by decide) (by decide) (by decide) rfl (by decide)
  simpa using this

/-! ## YjsMod against the specification's case analysis

`integrateYjsModSpec` is transcribed from the specification text (§4.5): the
two-dimensional case split is written as an explicit decision table
(`yjsModSpecCase`), the commit points are `i = len(content)` and `i = right`,
and `destIdx` tracks `i` only while not scanning. -/

/-- The outcome of one row of the spec's case analysis. -/
inductive SpecAction
  | commitHere
  | setScan
  | clearScan
  | keepScan
deriving DecidableEq, Repr

/-- The spec's case split for YjsMod: rows by `oleft` vs `left`, columns by
`oright` vs `right`, agent tie-break on the diagonal. -/
def yjsModSpecCase (left right : Int) (nAgent oAgent : Agent)
    (oleft oright : Int) : SpecAction :=
  if oleft < left then .commitHere
  else if oleft = left then
    if oright < right then .setScan
    else if oright = right then
      if agentLtb nAgent oAgent then .commitHere else .clearScan
    else .clearScan
  else .keepScan

/-- The spec's scan loop, driven by the decision table. -/
def yjsModSpecLoop (doc : Doc T) (N : Item T) (idx_hint left right : Int) :
    (rest : List (Item T)) → (scanning : Bool) → (destIdx i : Nat) → Except Err Nat
  | [], scanning, destIdx, i => .ok (if scanning then destIdx else i)
  | other :: rest, scanning, destIdx, i =>
    let d := if scanning then destIdx else i
    if (i : Int) = right then .ok d
    else do
      let oleft ← findItem doc other.originLeft (idx_hint - 1)
      let oright ← match other.originRight with
        | none => Except.ok (doc.content.length : Int)
        | some _ => findItem doc other.originRight idx_hint
      match yjsModSpecCase left right N.id.1 other.id.1 oleft oright with
      | .commitHere => .ok d
      | .setScan => yjsModSpecLoop doc N idx_hint left right rest true d (i + 1)
      | .clearScan => yjsModSpecLoop doc N idx_hint left right rest false d (i + 1)
      | .keepScan => yjsModSpecLoop doc N idx_hint left right rest scanning d (i + 1)

/-- YjsMod integration as described by the spec (§4.5). -/
def integrateYjsModSpec (doc : Doc T) (N : Item T) (idx_hint : Int) :
    Except (Err × Doc T) (Doc T) :=
  if (N.id.2 : Int) ≠ lastSeen doc N.id.1 + 1 then .error (.outOfOrder, doc)
  else
    let doc1 := bumpVersion doc N
    let body : Except Err Nat := do
      let left ← findItem doc1 N.originLeft (idx_hint - 1)
      let right ← match N.originRight with
        | none => Except.ok (doc1.content.length : Int)
        | some _ => findItem doc1 N.originRight idx_hint
      yjsModSpecLoop doc1 N idx_hint left right
        (doc1.content.drop (left + 1).toNat) false (left + 1).toNat (left + 1).toNat
    match body with
    | .error e => .error (e, doc1)
    | .ok destIdx =>
      .ok { doc1 with
            content := doc1.content.insertIdx destIdx N,
            length := if !N.isDeleted then doc1.length + 1 else doc1.length }

/-- The source loop agrees with the spec's decision-table loop. -/
theorem yjsModLoop_eq_spec (doc : Doc T) (N : Item T) (idx_hint left right : Int) :
    ∀ (rest : List (Item T)) (scanning : Bool) (destIdx i : Nat),
      yjsModLoop doc N idx_hint left right rest scanning destIdx i =
        yjsModSpecLoop doc N idx_hint left right rest scanning destIdx i := by
  intro rest
  induction rest with
  | nil =>
    intro scanning destIdx i
    cases scanning <;> rfl
  | cons other rest ih =>
    intro scanning destIdx i
    have hD : (if !scanning then i else destIdx) = (if scanning then destIdx else i) := by
      cases scanning <;> rfl
    rw [yjsModLoop, yjsModSpecLoop]
    simp only [hD]
    generalize (if scanning then destIdx else i) = D
    have step : ∀ (oleft oright : Int),
        (if oleft < left then (Except.ok D : Except Err Nat)
         else if oleft = left then
           if oright < right then yjsModLoop doc N idx_hint left right rest true D (i + 1)
           else if oright = right then
             if agentLtb N.id.1 other.id.1 then .ok D
             else yjsModLoop doc N idx_hint left right rest false D (i + 1)
           else yjsModLoop doc N idx_hint left right rest false D (i + 1)
         else yjsModLoop doc N idx_hint left right rest scanning D (i + 1))
        = (match yjsModSpecCase left right N.id.1 other.id.1 oleft oright with
           | .commitHere => (Except.ok D : Except Err Nat)
           | .setScan => yjsModSpecLoop doc N idx_hint left right rest true D (i + 1)
           | .clearScan => yjsModSpecLoop doc N idx_hint left right rest false D (i + 1)
           | .keepScan => yjsModSpecLoop doc N idx_hint left right rest scanning D (i + 1)) := by
      intro oleft oright
      unfold yjsModSpecCase
      by_cases h1 : oleft < left
      · simp [h1]
      · by_cases h2 : oleft = left
        · by_cases h3 : oright < right
          · simp [h1, h2, h3, ih]
          · by_cases h4 : oright = right
            · by_cases h5 : agentLtb N.id.1 other.id.1 = true
              · simp [h1, h2, h3, h4, h5]
              · simp only [Bool.not_eq_true] at h5
                simp [h1, h2, h3, h4, h5, ih]
            · simp [h1, h2, h3, h4, ih]
        · simp [h1, h2, ih]
    split
    · rfl
    · rcases hol : findItem doc other.originLeft (idx_hint - 1) with e₁ | oleft <;>
        simp only [hol, Bind.bind, Except.bind]
      rcases hOR : other.originRight with _ | orid <;>
        simp only [Bind.bind, Except.bind]
      · exact step oleft _
      · rcases hor : findItem doc (some orid) idx_hint with e₂ | oright <;>
          simp only [hor, Bind.bind, Except.bind]
        exact step oleft oright

/-- Claim C2: for every document and item meeting the seq precondition, the
YjsMod integration of the source follows exactly the spec's case analysis
(start at `left + 1`, track `destIdx` only while not scanning, commit at end
of document or at `right`, break/skip/scan per the decision table, splice at
`destIdx`, bump `length` iff not deleted). -/
theorem integrateYjsMod_follows_spec (doc : Doc T) (N : Item T) (idx_hint : Int)
    (hpre : (N.id.2 : Int) = lastSeen doc N.id.1 + 1) :
    integrateYjsMod doc N idx_hint = integrateYjsModSpec doc N idx_hint := by
  rw [integrateYjsMod_eq, integrateYjsModSpec]
  rw [if_neg (not_not_intro hpre), if_neg (not_not_intro hpre)]
  simp only [yjsModLoop_eq_spec]

/-- Witness for the C2 theorem: the two integrations agree on a concrete
insertion into a one-item document. -/
theorem integrateYjsMod_follows_spec_witness :
    integrateYjsMod
      (⟨[{ content := some "x", id := ("A", 0), originLeft := none,
           originRight := none, seq := 1, insertAfter := true,
           isDeleted := false }], [("A", 0)], 1, 1⟩ : Doc String)
      { content := some "y", id := ("B", 0), originLeft := none,
        originRight := some ("A", 0), seq := 2, insertAfter := true,
        isDeleted := false }
      0
    = integrateYjsModSpec
      (⟨[{ content := some "x", id := ("A", 0), originLeft := none,
           originRight := none, seq := 1, insertAfter := true,
           isDeleted := false }], [("A", 0)], 1, 1⟩ : Doc String)
      { content := some "y", id := ("B", 0), originLeft := none,
        originRight := some ("A", 0), seq := 2, insertAfter := true,
        isDeleted := false }
      0 :=
  integrateYjsMod_follows_spec _ _ _ (by decide)

/-! ## The interleaving-forward scenario -/

/-- The six operations of the `interleavingForward` test: agent `A` types
`"aaa"` (each anchored right of the prior), agent `B` types `"bbb"`
likewise, concurrently. -/
def fwdOps : List (Item String) :=
  [{ content := some "a", id := ("A", 0), originLeft := none, originRight := none,
     seq := 0, insertAfter := true, isDeleted := false },
   { content := some "a", id := ("A", 1), originLeft := some ("A", 0), originRight := none,
     seq := 1, insertAfter := true, isDeleted := false },
   { content := some "a", id := ("A", 2), originLeft := some ("A", 1), originRight := none,
     seq := 2, insertAfter := true, isDeleted := false },
   { content := some "b", id := ("B", 0), originLeft := none, originRight := none,
     seq := 0, insertAfter := true, isDeleted := false },
   { content := some "b", id := ("B", 1), originLeft := some ("B", 0), originRight := none,
     seq := 1, insertAfter := true, isDeleted := false },
   { content := some "b", id := ("B", 2), originLeft := some ("B", 1), originRight := none,
     seq := 2, insertAfter := true, isDeleted := false }]

/-- An integration order is causally valid when every op satisfies
`canInsertNow` at its turn and integrates successfully. -/
def validIntegration (f : IntegrateFn T) : List (Item T) → Doc T → Bool
  | [], _ => true
  | op :: rest, doc =>
    canInsertNow op doc &&
      (match f doc op (-1) with
       | .ok d => validIntegration f rest d
       | .error _ => false)

/-- Integrate a whole list of ops in order (`none` on any failure). -/
def integrateAll (f : IntegrateFn T) : List (Item T) → Doc T → Option (Doc T)
  | [], doc => some doc
  | op :: rest, doc =>
    match f doc op (-1) with
    | .ok d => integrateAll f rest d
    | .error _ => none

set_option maxHeartbeats 4000000 in
set_option maxRecDepth 10000 in
/-- Claim C3: every ordering of the six `interleavingForward` operations that
respects causal readiness integrates under YjsMod to exactly
`["a","a","a","b","b","b"]` — in particular each agent's run is a contiguous
subsequence. -/
theorem yjsMod_interleaving_forward :
    ∀ l : List (Item String), l.Perm fwdOps → validIntegration integrateYjsMod l newDoc = true →
      (integrateAll integrateYjsMod l newDoc).map getArray
        = some ["a", "a", "a", "b", "b", "b"] := by
  have hdec : ∀ l ∈ fwdOps.permutations',
      validIntegration integrateYjsMod l newDoc = true →
      (integrateAll integrateYjsMod l newDoc).map getArray
        = some ["a", "a", "a", "b", "b", "b"] := by
    decide
  intro l hperm
  exact hdec l (List.mem_permutations'.mpr hperm)

/-- Witness for the C3 theorem at the natural sequential order. -/
theorem yjsMod_interleaving_forward_witness :
    (integrateAll integrateYjsMod fwdOps newDoc).map getArray
      = some ["a", "a", "a", "b", "b", "b"] :=
  yjsMod_interleaving_forward fwdOps (List.Perm.refl _) (by decide)

/-! ## Length coherence -/

/-- The length-coherence invariant: the `length` field counts exactly the
items with content present and `isDeleted = false`. -/
def lengthCoherent (d : Doc T) : Prop :=
  d.length = (d.content.countP visibleB : Int)

instance (d : Doc T) : Decidable (lengthCoherent d) :=
  inferInstanceAs (Decidable (d.length = (d.content.countP visibleB : Int)))

theorem findItem2_ok_bounds {doc : Doc T} {needle : Option Id} {atEnd : Bool}
    {hint : Int} {v : Int} (h : findItem2 doc needle atEnd hint = .ok v) :
    -1 ≤ v ∧ (v = -1 ∨ v < (doc.content.length : Int)) := by
  unfold findItem2 at h
  rcases needle with _ | ⟨a, s⟩
  · simp only [Except.ok.injEq] at h
    subst h
    exact ⟨le_refl _, Or.inl rfl⟩
  · simp only at h
    have hfb : ∀ (idx : Nat), doc.content.findIdx? (findPred atEnd a s) = some idx →
        idx < doc.content.length := by
      intro idx hidx
      have := List.findIdx?_eq_some_iff_findIdx_eq.mp hidx
      exact this.1
    split at h
    · rename_i hcond
      split at h
      · simp only [Except.ok.injEq] at h
        subst h
        exact ⟨by omega, Or.inr (by omega)⟩
      · split at h
        · rename_i idx hidx
          simp only [Except.ok.injEq] at h
          subst h
          have := hfb idx hidx
          exact ⟨by omega, Or.inr (by omega)⟩
        · simp at h
    · split at h
      · rename_i idx hidx
        simp only [Except.ok.injEq] at h
        subst h
        have := hfb idx hidx
        exact ⟨by omega, Or.inr (by omega)⟩
      · simp at h

theorem findItem2_ok_succ_le {doc : Doc T} {needle : Option Id} {atEnd : Bool}
    {hint : Int} {v : Int} (h : findItem2 doc needle atEnd hint = .ok v) :
    (v + 1).toNat ≤ doc.content.length := by
  obtain ⟨h1, h2⟩ := findItem2_ok_bounds h
  rcases h2 with h2 | h2 <;> omega

theorem yjsModLoop_ok_le {doc : Doc T} {N : Item T} {idx_hint left right : Int}
    {rest : List (Item T)} {scanning : Bool} {destIdx i res : Nat}
    (h : yjsModLoop doc N idx_hint left right rest scanning destIdx i = .ok res)
    (hlen : i + rest.length = doc.content.length) (hd : destIdx ≤ i) :
    res ≤ doc.content.length := by
  induction rest generalizing scanning destIdx i with
  | nil =>
    simp only [yjsModLoop, Except.ok.injEq] at h
    subst h
    split <;> omega
  | cons other rest ih =>
    rw [yjsModLoop] at h
    simp only at h
    generalize hD : (if !scanning then i else destIdx) = D at h
    have hDle : D ≤ i := by
      rw [← hD]
      split <;> omega
    have hi : i < doc.content.length := by simp at hlen; omega
    split at h
    · simp only [Except.ok.injEq] at h
      omega
    · rcases hol : findItem doc other.originLeft (idx_hint - 1) with e₁ | oleft <;>
        rw [hol] at h <;> simp only [Bind.bind, Except.bind] at h
      · simp at h
      · rcases hOR : other.originRight with _ | orid <;>
          rw [hOR] at h <;> simp only [Bind.bind, Except.bind] at h
        · split at h
          · simp only [Except.ok.injEq] at h
            omega
          · split at h
            · split at h
              · exact ih h (by simp at hlen ⊢; omega) (by omega)
              · split at h
                · split at h
                  · simp only [Except.ok.injEq] at h
                    omega
                  · exact ih h (by simp at hlen ⊢; omega) (by omega)
                · exact ih h (by simp at hlen ⊢; omega) (by omega)
            · exact ih h (by simp at hlen ⊢; omega) (by omega)
        · rcases hor : findItem doc (some orid) idx_hint with e₂ | oright <;>
            rw [hor] at h <;> simp only [Bind.bind, Except.bind] at h
          · simp at h
          · split at h
            · simp only [Except.ok.injEq] at h
              omega
            · split at h
              · split at h
                · exact ih h (by simp at hlen ⊢; omega) (by omega)
                · split at h
                  · split at h
                    · simp only [Except.ok.injEq] at h
                      omega
                    · exact ih h (by simp at hlen ⊢; omega) (by omega)
                  · exact ih h (by simp at hlen ⊢; omega) (by omega)
              · exact ih h (by simp at hlen ⊢; omega) (by omega)

theorem yjsLoop_ok_le {doc : Doc T} {N : Item T} {idx_hint left right : Int}
    {rest : List (Item T)} {scanning : Bool} {destIdx i res : Nat}
    (h : yjsLoop doc N idx_hint left right rest scanning destIdx i = .ok res)
    (hlen : i + rest.length = doc.content.length) (hd : destIdx ≤ i) :
    res ≤ doc.content.length := by
  induction rest generalizing scanning destIdx i with
  | nil =>
    simp only [yjsLoop, Except.ok.injEq] at h
    subst h
    split <;> omega
  | cons other rest ih =>
    rw [yjsLoop] at h
    simp only at h
    generalize hD : (if !scanning then i else destIdx) = D at h
    have hDle : D ≤ i := by
      rw [← hD]
      split <;> omega
    have hi : i < doc.content.length := by simp at hlen; omega
    split at h
    · simp only [Except.ok.injEq] at h
      omega
    · rcases hol : findItem doc other.originLeft (idx_hint - 1) with e₁ | oleft <;>
        rw [hol] at h <;> simp only [Bind.bind, Except.bind] at h
      · simp at h
      · rcases hOR : other.originRight with _ | orid <;>
          rw [hOR] at h <;> simp only [Bind.bind, Except.bind] at h
        · split at h
          · simp only [Except.ok.injEq] at h
            omega
          · split at h
            · split at h
              · exact ih h (by simp at hlen ⊢; omega) (by omega)
              · split at h
                · simp only [Except.ok.injEq] at h
                  omega
                · exact ih h (by simp at hlen ⊢; omega) (by omega)
            · exact ih h (by simp at hlen ⊢; omega) (by omega)
        · rcases hor : findItem doc (some orid) idx_hint with e₂ | oright <;>
            rw [hor] at h <;> simp only [Bind.bind, Except.bind] at h
          · simp at h
          · split at h
            · simp only [Except.ok.injEq] at h
              omega
            · split at h
              · split at h
                · exact ih h (by simp at hlen ⊢; omega) (by omega)
                · split at h
                  · simp only [Except.ok.injEq] at h
                    omega
                  · exact ih h (by simp at hlen ⊢; omega) (by omega)
              · exact ih h (by simp at hlen ⊢; omega) (by omega)

theorem amLoop_ok_le {doc : Doc T} {N : Item T} {idx_hint parent : Int}
    {rest : List (Item T)} {lostConflict : Bool} {destIdx res : Nat}
    (h : amLoop doc N idx_hint parent rest lostConflict destIdx = .ok res)
    (hlen : destIdx + rest.length = doc.content.length) :
    res ≤ doc.content.length := by
  induction rest generalizing lostConflict destIdx with
  | nil =>
    simp only [amLoop, Except.ok.injEq] at h
    omega
  | cons o rest ih =>
    rw [amLoop] at h
    have hi : destIdx < doc.content.length := by simp at hlen; omega
    split at h
    · simp only [Except.ok.injEq] at h
      omega
    · rcases hol : findItem doc o.originLeft (idx_hint - 1) with e₁ | oparent <;>
        rw [hol] at h <;> simp only [Bind.bind, Except.bind] at h
      · simp at h
      · split at h
        · simp only [Except.ok.injEq] at h
          omega
        · split at h
          · split at h
            · split at h
              · simp only [Except.ok.injEq] at h
                omega
              · exact ih h (by simp at hlen ⊢; omega)
            · exact ih h (by simp at hlen ⊢; omega)
          · split at h
            · exact ih h (by simp at hlen ⊢; omega)
            · simp at h

theorem sync9Loop_ok_le {doc : Doc T} {N : Item T} {idx_hint parentIdx : Int}
    {rest : List (Item T)} {destIdx res : Nat}
    (h : sync9Loop doc N idx_hint parentIdx rest destIdx = .ok res)
    (hlen : destIdx + rest.length = doc.content.length) :
    res ≤ doc.content.length := by
  induction rest generalizing destIdx with
  | nil =>
    simp only [sync9Loop, Except.ok.injEq] at h
    omega
  | cons other rest ih =>
    rw [sync9Loop] at h
    have hi : destIdx < doc.content.length := by simp at hlen; omega
    rcases hol : findItem2 doc other.originLeft other.insertAfter (idx_hint - 1)
        with e₁ | oparentIdx <;> rw [hol] at h <;>
      simp only [Bind.bind, Except.bind] at h
    · simp at h
    · split at h
      · simp only [Except.ok.injEq] at h
        omega
      · split at h
        · split at h
          · simp only [Except.ok.injEq] at h
            omega
          · exact ih h (by simp at hlen ⊢; omega)
        · exact ih h (by simp at hlen ⊢; omega)

theorem countP_insertIdx (l : List α) (n : Nat) (a : α) (p : α → Bool)
    (h : n ≤ l.length) :
    (l.insertIdx n a).countP p = l.countP p + (if p a then 1 else 0) := by
  rw [insertIdx_eq_take_cons_drop l n a h]
  rw [List.countP_append, List.countP_cons]
  conv_rhs => rw [← List.take_append_drop n l, List.countP_append]
  split <;> omega

theorem yjsModBody_ok_le {doc : Doc T} {N : Item T} {hint : Int} {dest : Nat}
    (h : (do
      let left ← findItem doc N.originLeft (hint - 1)
      let right ← match N.originRight with
        | none => Except.ok ((doc.content.length : Int))
        | some _ => findItem doc N.originRight hint
      yjsModLoop doc N hint left right (doc.content.drop (left + 1).toNat) false
        (left + 1).toNat (left + 1).toNat
     : Except Err Nat) = .ok dest) : dest ≤ doc.content.length := by
  rcases h1 : findItem doc N.originLeft (hint - 1) with e₁ | left <;>
    rw [h1] at h <;> simp only [Bind.bind, Except.bind] at h
  · simp at h
  · have hle : (left + 1).toNat ≤ doc.content.length := findItem2_ok_succ_le h1
    have hlen : (left + 1).toNat + (doc.content.drop (left + 1).toNat).length
        = doc.content.length := by
      simp [List.length_drop]
      omega
    rcases hOR : N.originRight with _ | orid <;>
      rw [hOR] at h <;> simp only [Bind.bind, Except.bind] at h
    · exact yjsModLoop_ok_le h hlen (le_refl _)
    · rcases h2 : findItem doc (some orid) hint with e₂ | right <;>
        rw [h2] at h <;> simp only [Bind.bind, Except.bind] at h
      · simp at h
      · exact yjsModLoop_ok_le h hlen (le_refl _)

theorem yjsBody_ok_le {doc : Doc T} {N : Item T} {hint : Int} {dest : Nat}
    (h : (do
      let left ← findItem doc N.originLeft (hint - 1)
      let right ← match N.originRight with
        | none => Except.ok ((doc.content.length : Int))
        | some _ => findItem doc N.originRight hint
      yjsLoop doc N hint left right (doc.content.drop (left + 1).toNat) false
        (left + 1).toNat (left + 1).toNat
     : Except Err Nat) = .ok dest) : dest ≤ doc.content.length := by
  rcases h1 : findItem doc N.originLeft (hint - 1) with e₁ | left <;>
    rw [h1] at h <;> simp only [Bind.bind, Except.bind] at h
  · simp at h
  · have hle : (left + 1).toNat ≤ doc.content.length := findItem2_ok_succ_le h1
    have hlen : (left + 1).toNat + (doc.content.drop (left + 1).toNat).length
        = doc.content.length := by
      simp [List.length_drop]
      omega
    rcases hOR : N.originRight with _ | orid <;>
      rw [hOR] at h <;> simp only [Bind.bind, Except.bind] at h
    · exact yjsLoop_ok_le h hlen (le_refl _)
    · rcases h2 : findItem doc (some orid) hint with e₂ | right <;>
        rw [h2] at h <;> simp only [Bind.bind, Except.bind] at h
      · simp at h
      · exact yjsLoop_ok_le h hlen (le_refl _)

theorem amBody_ok_le {doc : Doc T} {N : Item T} {hint : Int} {dest : Nat}
    (h : (do
      let parent ← findItem doc N.originLeft (hint - 1)
      amLoop doc N hint parent (doc.content.drop (parent + 1).toNat) false
        (parent + 1).toNat
     : Except Err Nat) = .ok dest) : dest ≤ doc.content.length := by
  rcases h1 : findItem doc N.originLeft (hint - 1) with e₁ | parent <;>
    rw [h1] at h <;> simp only [Bind.bind, Except.bind] at h
  · simp at h
  · have hle : (parent + 1).toNat ≤ doc.content.length := findItem2_ok_succ_le h1
    have hlen : (parent + 1).toNat + (doc.content.drop (parent + 1).toNat).length
        = doc.content.length := by
      simp [List.length_drop]
      omega
    exact amLoop_ok_le h hlen

/-- Visibility of the integrated item matches the `length` update condition
of yjs/yjsMod/automerge when its content is present. -/
theorem visibleB_of_content_isSome {N : Item T} (hc : N.content.isSome = true) :
    (if visibleB N = true then (1 : Int) else 0)
      = (if !N.isDeleted then (1 : Int) else 0) := by
  cases hd : N.isDeleted <;> simp [visibleB, hd, hc]

theorem integrateYjsMod_coherent {doc d' : Doc T} {N : Item T} {hint : Int}
    (hc : lengthCoherent doc) (hcontent : N.content.isSome = true)
    (h : integrateYjsMod doc N hint = .ok d') : lengthCoherent d' := by
  rw [integrateYjsMod_eq] at h
  split at h
  · simp at h
  · rcases hb : (do
      let left ← findItem (bumpVersion doc N) N.originLeft (hint - 1)
      let right ← match N.originRight with
        | none => Except.ok (((bumpVersion doc N).content.length : Int))
        | some _ => findItem (bumpVersion doc N) N.originRight hint
      yjsModLoop (bumpVersion doc N) N hint left right
        ((bumpVersion doc N).content.drop (left + 1).toNat) false
        (left + 1).toNat (left + 1).toNat
     : Except Err Nat) with e | dest <;> rw [hb] at h
    · simp at h
    · simp only [Except.ok.injEq] at h
      subst h
      have hdest := yjsModBody_ok_le hb
      unfold lengthCoherent at hc ⊢
      simp only
      rw [countP_insertIdx _ _ _ _ hdest]
      have := visibleB_of_content_isSome (T := T) (N := N) hcontent
      split <;> rename_i hdel <;> simp [bumpVersion] at hc ⊢ <;>
        [skip; skip] <;> split at this <;> simp_all

theorem integrateYjs_coherent {doc d' : Doc T} {N : Item T} {hint : Int}
    (hc : lengthCoherent doc) (hcontent : N.content.isSome = true)
    (h : integrateYjs doc N hint = .ok d') : lengthCoherent d' := by
  rw [integrateYjs_eq] at h
  split at h
  · simp at h
  · rcases hb : (do
      let left ← findItem (bumpVersion doc N) N.originLeft (hint - 1)
      let right ← match N.originRight with
        | none => Except.ok (((bumpVersion doc N).content.length : Int))
        | some _ => findItem (bumpVersion doc N) N.originRight hint
      yjsLoop (bumpVersion doc N) N hint left right
        ((bumpVersion doc N).content.drop (left + 1).toNat) false
        (left + 1).toNat (left + 1).toNat
     : Except Err Nat) with e | dest <;> rw [hb] at h
    · simp at h
    · simp only [Except.ok.injEq] at h
      subst h
      have hdest := yjsBody_ok_le hb
      unfold lengthCoherent at hc ⊢
      simp only
      rw [countP_insertIdx _ _ _ _ hdest]
      have := visibleB_of_content_isSome (T := T) (N := N) hcontent
      split <;> rename_i hdel <;> simp [bumpVersion] at hc ⊢ <;>
        [skip; skip] <;> split at this <;> simp_all

theorem integrateAutomerge_coherent {doc d' : Doc T} {N : Item T} {hint : Int}
    (hc : lengthCoherent doc) (hcontent : N.content.isSome = true)
    (h : integrateAutomerge doc N hint = .ok d') : lengthCoherent d' := by
  rw [integrateAutomerge_eq] at h
  split at h
  · simp at h
  · rcases hb : (do
      let parent ← findItem (bumpVersion doc N) N.originLeft (hint - 1)
      amLoop (bumpVersion doc N) N hint parent
        ((bumpVersion doc N).content.drop (parent + 1).toNat) false (parent + 1).toNat
     : Except Err Nat) with e | dest <;> rw [hb] at h
    · simp at h
    · simp only [Except.ok.injEq] at h
      subst h
      have hdest := amBody_ok_le hb
      unfold lengthCoherent at hc ⊢
      simp only
      rw [countP_insertIdx _ _ _ _ hdest]
      have := visibleB_of_content_isSome (T := T) (N := N) hcontent
      split <;> rename_i hdel <;> simp [bumpVersion] at hc ⊢ <;>
        [skip; skip] <;> split at this <;> simp_all

theorem integrateSync9_coherent {doc d' : Doc T} {N : Item T} {hint : Int}
    (hc : lengthCoherent doc)
    (h : integrateSync9 doc N hint = .ok d') : lengthCoherent d' := by
  have hvN : (if visibleB N = true then (1 : Int) else 0)
      = (if (!N.isDeleted && N.content.isSome) = true then (1 : Int) else 0) := by
    simp [visibleB]
  rw [integrateSync9_eq] at h
  split at h
  · simp at h
  · rcases hf : findItem2 (bumpVersion doc N) N.originLeft N.insertAfter (hint - 1)
      with e | parentIdx <;> rw [hf] at h
    · simp at h
    · simp only at h
      split at h
      · rename_i hsplit
        rcases hg : (bumpVersion doc N).content[parentIdx.toNat]? with _ | parentItem <;>
          rw [hg] at h
        · simp at h
        · simp only [Except.ok.injEq] at h
          subst h
          have hp : parentIdx.toNat < doc.content.length := by
            have := (List.getElem?_eq_some_iff.mp hg).1
            simpa [bumpVersion] using this
          have hge0 : 0 ≤ parentIdx := by
            simp only [Bool.and_eq_true, decide_eq_true_eq] at hsplit
            exact hsplit.1.1.1
          unfold lengthCoherent at hc ⊢
          simp only
          have hp' : parentIdx.toNat ≤ (bumpVersion doc N).content.length := by
            simpa [bumpVersion] using Nat.le_of_lt hp
          have hc1 : ((bumpVersion doc N).content.insertIdx parentIdx.toNat
              { parentItem with content := none }).countP visibleB
              = doc.content.countP visibleB := by
            rw [countP_insertIdx _ _ _ _ hp']
            simp [bumpVersion, visibleB]
          have hlen1 : ((bumpVersion doc N).content.insertIdx parentIdx.toNat
              { parentItem with content := none }).length
              = doc.content.length + 1 := by
            rw [List.length_insertIdx _ _ hp']
            simp [bumpVersion]
          rw [countP_insertIdx _ _ _ _ (by rw [hlen1]; omega : (parentIdx + 1).toNat ≤
            ((bumpVersion doc N).content.insertIdx parentIdx.toNat
              { parentItem with content := none }).length)]
          rw [hc1]
          simp only [bumpVersion] at hc ⊢
          split at hvN <;> split at hvN <;> simp_all <;> omega
      · rcases hl : sync9Loop (bumpVersion doc N) N hint parentIdx
            ((bumpVersion doc N).content.drop (parentIdx + 1).toNat)
            (parentIdx + 1).toNat with e | dest <;> rw [hl] at h
        · simp at h
        · simp only [Except.ok.injEq] at h
          subst h
          have hle : (parentIdx + 1).toNat ≤ doc.content.length := by
            have := findItem2_ok_succ_le hf
            simpa [bumpVersion] using this
          have hdest : dest ≤ doc.content.length := by
            have := sync9Loop_ok_le hl (by simp [bumpVersion, List.length_drop]; omega)
            simpa [bumpVersion] using this
          unfold lengthCoherent at hc ⊢
          simp only
          rw [countP_insertIdx _ _ _ _ (by simpa [bumpVersion] using hdest)]
          simp only [bumpVersion] at hc ⊢
          split at hvN <;> split at hvN <;> simp_all <;> omega

theorem localDelete_coherent {doc d' : Doc T} {agent : Agent} {pos : Nat}
    (hc : lengthCoherent doc)
    (h : localDelete doc agent pos = .ok d') : lengthCoherent d' := by
  unfold localDelete at h
  rcases Nat.lt_trichotomy pos (doc.content.countP visibleB) with hlt | heq | hgt
  · obtain ⟨j, hj, hfind, hvis⟩ := findItemAtPosAux_lt doc.content pos 0 hlt
    simp only [Nat.zero_add] at hfind
    have hfind' : findItemAtPos doc pos false = .ok j := hfind
    simp only [hfind'] at h
    simp only [List.getElem?_eq_getElem hj] at h
    have hnd : doc.content[j].isDeleted = false := by
      simp only [List.get_eq_getElem] at hvis
      simp [visibleB] at hvis
      exact hvis.1
    rw [if_pos (by simp [hnd])] at h
    simp only [Except.ok.injEq] at h
    subst h
    have hvisj : visibleB doc.content[j] = true := by
      simpa [List.get_eq_getElem] using hvis
    have hpos : 0 < doc.content.countP visibleB := by
      refine List.countP_pos_iff.mpr ⟨doc.content[j], List.getElem_mem hj, hvisj⟩
    unfold lengthCoherent at hc ⊢
    simp only
    rw [List.countP_set _ _ _ _ hj]
    have : visibleB { doc.content[j] with isDeleted := true } = false := by
      simp [visibleB]
    rw [this]
    simp only [hvisj, if_true, if_pos, Bool.false_eq_true, if_false]
    omega
  · have := findItemAtPosAux_ge doc.content pos 0 (by omega)
    rw [if_pos heq] at this
    simp only [Nat.zero_add] at this
    have hfind' : findItemAtPos doc pos false = .ok doc.content.length := this
    simp only [hfind'] at h
    rw [List.getElem?_eq_none (Nat.le_refl _)] at h
    simp at h
  · have := findItemAtPosAux_ge doc.content pos 0 (by omega)
    rw [if_neg (by omega)] at this
    have hfind' : findItemAtPos doc pos false = .error .positionOutOfRange := this
    simp only [hfind'] at h
    simp at h

/-- A merge pass preserves coherence and the all-content-present property of
the missing list, for any integrate that preserves coherence on
content-present items. -/
theorem mergePass_coherent {f : IntegrateFn T}
    (hf : ∀ (d d' : Doc T) (N : Item T), lengthCoherent d → N.content.isSome = true →
      f d N (-1) = .ok d' → lengthCoherent d') :
    ∀ (missing : List (Option (Item T))) (dest dest' : Doc T)
      (missing' : List (Option (Item T))) (k : Nat),
      (∀ o : Item T, some o ∈ missing → o.content.isSome = true) →
      lengthCoherent dest →
      mergePass f dest missing = .ok (dest', missing', k) →
      lengthCoherent dest' ∧ (∀ o : Item T, some o ∈ missing' → o.content.isSome = true) := by
  intro missing
  induction missing with
  | nil =>
    intro dest dest' missing' k hinv hc h
    simp only [mergePass, Except.ok.injEq, Prod.mk.injEq] at h
    obtain ⟨h1, h2, _⟩ := h
    subst h1
    subst h2
    exact ⟨hc, by simp⟩
  | cons op? rest ih =>
    intro dest dest' missing' k hinv hc h
    rcases op? with _ | op
    · rw [mergePass] at h
      rcases hr : mergePass f dest rest with e | ⟨d, l, m⟩ <;>
        rw [hr] at h <;> simp only [Bind.bind, Except.bind] at h
      · simp at h
      · simp only [Except.ok.injEq, Prod.mk.injEq] at h
        obtain ⟨h1, h2, _⟩ := h
        subst h1
        subst h2
        obtain ⟨hcd, hl⟩ := ih dest d l m (fun o ho => hinv o (by simp [ho])) hc hr
        refine ⟨hcd, fun o ho => hl o ?_⟩
        simpa using ho
    · rw [mergePass] at h
      split at h
      · rcases hint : f dest op (-1) with e | dest1 <;> simp only [hint] at h
        · simp at h
        · rcases hr : mergePass f dest1 rest with e | ⟨d, l, m⟩ <;>
            rw [hr] at h <;> simp only [Bind.bind, Except.bind] at h
          · simp at h
          · simp only [Except.ok.injEq, Prod.mk.injEq] at h
            obtain ⟨h1, h2, _⟩ := h
            subst h1
            subst h2
            have hop : op.content.isSome = true := hinv op (by simp)
            have hc1 : lengthCoherent dest1 := hf dest dest1 op hc hop hint
            obtain ⟨hcd, hl⟩ := ih dest1 d l m (fun o ho => hinv o (by simp [ho])) hc1 hr
            refine ⟨hcd, fun o ho => hl o ?_⟩
            simpa using ho
      · rcases hr : mergePass f dest rest with e | ⟨d, l, m⟩ <;>
          rw [hr] at h <;> simp only [Bind.bind, Except.bind] at h
        · simp at h
        · simp only [Except.ok.injEq, Prod.mk.injEq] at h
          obtain ⟨h1, h2, _⟩ := h
          subst h1
          subst h2
          obtain ⟨hcd, hl⟩ := ih dest d l m (fun o ho => hinv o (by simp [ho])) hc hr
          refine ⟨hcd, fun o ho => ?_⟩
          rcases List.mem_cons.mp ho with ho | ho
          · exact hinv o (by simp [← ho])
          · exact hl o ho

theorem mergeLoop_coherent {f : IntegrateFn T}
    (hf : ∀ (d d' : Doc T) (N : Item T), lengthCoherent d → N.content.isSome = true →
      f d N (-1) = .ok d' → lengthCoherent d') :
    ∀ (fuel : Nat) (dest d' : Doc T) (missing : List (Option (Item T))) (remaining : Nat),
      (∀ o : Item T, some o ∈ missing → o.content.isSome = true) →
      lengthCoherent dest →
      mergeLoop f fuel dest missing remaining = .ok d' →
      lengthCoherent d' := by
  intro fuel
  induction fuel with
  | zero =>
    intro dest d' missing remaining hinv hc h
    rw [mergeLoop] at h
    split at h
    · simp only [Except.ok.injEq] at h
      subst h
      exact hc
    · simp at h
  | succ fuel ih =>
    intro dest d' missing remaining hinv hc h
    rw [mergeLoop] at h
    split at h
    · simp only [Except.ok.injEq] at h
      subst h
      exact hc
    · rcases hp : mergePass f dest missing with e | ⟨d, l, m⟩ <;> rw [hp] at h
      · simp at h
      · simp only at h
        split at h
        · simp at h
        · obtain ⟨hcd, hl⟩ := mergePass_coherent hf missing dest d l m hinv hc hp
          exact ih d d' l (remaining - m) hl hcd h

theorem mergeInto_coherent {f : IntegrateFn T}
    (hf : ∀ (d d' : Doc T) (N : Item T), lengthCoherent d → N.content.isSome = true →
      f d N (-1) = .ok d' → lengthCoherent d')
    {dest src d' : Doc T} (hc : lengthCoherent dest)
    (h : mergeInto f dest src = .ok d') : lengthCoherent d' := by
  unfold mergeInto at h
  refine mergeLoop_coherent hf _ _ _ _ _ (fun o ho => ?_) hc h
  simp only [List.mem_map] at ho
  obtain ⟨x, hx, hxo⟩ := ho
  obtain rfl : x = o := by simpa using hxo
  have := List.mem_filter.mp hx
  simp only [Bool.and_eq_true] at this
  exact this.2.1

/-! ## Reachable documents, the amended coherence invariant -/

/-- The four algorithm selectors exported by `crdts.ts`. -/
inductive Alg
  | yjsMod
  | yjs
  | automerge
  | sync9
deriving DecidableEq, Repr

/-- The `integrate` bound by each selector. -/
def integrateOf : Alg → IntegrateFn T
  | .yjsMod => integrateYjsMod
  | .yjs => integrateYjs
  | .automerge => integrateAutomerge
  | .sync9 => integrateSync9

/-- The `localInsert` bound by each selector. -/
def localInsertOf (a : Alg) : Doc T → Agent → Nat → T → Except (Err × Doc T) (Doc T) :=
  match a with
  | .yjsMod => localInsert integrateYjsMod
  | .yjs => localInsert integrateYjs
  | .automerge => localInsert integrateAutomerge
  | .sync9 => localInsertSync9 integrateSync9

/-- Documents reachable by successful operations under an algorithm.
Raw `integrate` steps under yjs/yjsMod/automerge are restricted to items
with content present (the amendment forced by
`yjsMod_integrate_breaks_length`). -/
inductive Reachable (a : Alg) : Doc T → Prop
  | new : Reachable a newDoc
  | localIns {d d' : Doc T} {ag : Agent} {pos : Nat} {c : T} :
      Reachable a d → localInsertOf a d ag pos c = .ok d' → Reachable a d'
  | localDel {d d' : Doc T} {ag : Agent} {pos : Nat} :
      Reachable a d → localDelete d ag pos = .ok d' → Reachable a d'
  | integrateStep {d d' : Doc T} {N : Item T} {hint : Int} :
      Reachable a d → (a ≠ .sync9 → N.content.isSome = true) →
      integrateOf a d N hint = .ok d' → Reachable a d'
  | merge {d d' src : Doc T} :
      Reachable a d → mergeInto (integrateOf a) d src = .ok d' → Reachable a d'

theorem integrateOf_coherent {a : Alg} {d d' : Doc T} {N : Item T} {hint : Int}
    (hc : lengthCoherent d) (hcontent : a ≠ .sync9 → N.content.isSome = true)
    (h : integrateOf a d N hint = .ok d') : lengthCoherent d' := by
  cases a
  · exact integrateYjsMod_coherent hc (hcontent (by simp)) h
  · exact integrateYjs_coherent hc (hcontent (by simp)) h
  · exact integrateAutomerge_coherent hc (hcontent (by simp)) h
  · exact integrateSync9_coherent hc h

/-- Claim C4 (amended): for every algorithm, every document reachable by
successful operations — where items handed directly to `integrate` under
yjs/yjsMod/automerge have content present — satisfies
`doc.length = |{i ∈ content : content present ∧ ¬isDeleted}|`. The
unrestricted claim is refuted by `yjsMod_integrate_breaks_length`. -/
theorem length_coherent_of_reachable {a : Alg} {d : Doc T}
    (h : Reachable a d) : lengthCoherent d := by
  induction h with
  | new => simp [lengthCoherent, newDoc]
  | localIns hr hop ih =>
    rename_i d d' ag pos c
    cases a with
    | yjsMod =>
      simp only [localInsertOf, localInsert] at hop
      rcases hfp : findItemAtPos d pos false with e | i <;> simp only [hfp] at hop
      · simp at hop
      · exact integrateYjsMod_coherent ih (by simp) hop
    | yjs =>
      simp only [localInsertOf, localInsert] at hop
      rcases hfp : findItemAtPos d pos false with e | i <;> simp only [hfp] at hop
      · simp at hop
      · exact integrateYjs_coherent ih (by simp) hop
    | automerge =>
      simp only [localInsertOf, localInsert] at hop
      rcases hfp : findItemAtPos d pos false with e | i <;> simp only [hfp] at hop
      · simp at hop
      · exact integrateAutomerge_coherent ih (by simp) hop
    | sync9 =>
      simp only [localInsertOf, localInsertSync9] at hop
      rcases hfp : findItemAtPos d pos true with e | i <;> simp only [hfp] at hop
      · simp at hop
      · exact integrateSync9_coherent ih hop
  | localDel hr hop ih => exact localDelete_coherent ih hop
  | integrateStep hr hcont hop ih => exact integrateOf_coherent ih hcont hop
  | merge hr hop ih =>
    refine mergeInto_coherent (fun d1 d2 N hc1 hN hint => ?_) ih hop
    exact integrateOf_coherent hc1 (fun _ => hN) hint

/-- Claim C4 counterexample: a single successful `integrate` of a
content-absent, non-deleted item under yjsMod produces a document whose
`length` field is 1 while no item is visible — length coherence fails. -/
theorem yjsMod_integrate_breaks_length :
    (integrateYjsMod (T := String) newDoc
      { content := none, id := ("A", 0), originLeft := none, originRight := none,
        seq := 0, insertAfter := true, isDeleted := false } (-1)).map
      (fun d => (d.length, (d.content.countP visibleB : Int), decide (lengthCoherent d)))
      = .ok (1, 0, false) := by
  rfl

/-- Witness for the C4 theorem after one successful local insert. -/
theorem length_coherent_of_reachable_witness :
    lengthCoherent (T := String)
      ⟨[{ content := some "x", id := ("A", 0), originLeft := none,
          originRight := none, seq := 1, insertAfter := true,
          isDeleted := false }], [("A", 0)], 1, 0⟩ :=
  length_coherent_of_reachable (a := Alg.yjsMod)
    (Reachable.localIns Reachable.new
      (show localInsertOf Alg.yjsMod newDoc "A" 0 "x"
          = .ok ⟨[{ content := some "x", id := ("A", 0), originLeft := none,
                    originRight := none, seq := 1, insertAfter := true,
                    isDeleted := false }], [("A", 0)], 1, 0⟩ from rfl))

/-! ## Merge idempotence -/

/-- Pointwise order on version vectors: every binding only grows. -/
def versionLE (v w : Version) : Prop :=
  ∀ a n, vget v a = some n → ∃ m, vget w a = some m ∧ n ≤ m

theorem versionLE_refl (v : Version) : versionLE v v :=
  fun _ n h => ⟨n, h, le_refl n⟩

theorem versionLE_trans {u v w : Version} (h1 : versionLE u v) (h2 : versionLE v w) :
    versionLE u w := by
  intro a n hn
  obtain ⟨m, hm, hnm⟩ := h1 a n hn
  obtain ⟨k, hk, hmk⟩ := h2 a m hm
  exact ⟨k, hk, le_trans hnm hmk⟩

theorem versionLE_vset (v : Version) (a : Agent) (n : Nat)
    (h : ∀ m, vget v a = some m → m ≤ n) : versionLE v (vset v a n) := by
  intro b k hk
  by_cases hab : a = b
  · subst hab
    exact ⟨n, vget_vset_self v a n, h k hk⟩
  · rw [vget_vset_other v a b n hab]
    exact ⟨k, hk, le_refl k⟩

theorem isInVersion_mono {v w : Version} (h : versionLE v w) {id : Option Id}
    (hin : isInVersion id v = true) : isInVersion id w = true := by
  rcases id with _ | ⟨a, s⟩
  · rfl
  · simp only [isInVersion] at hin ⊢
    rcases hv : vget v a with _ | m
    · rw [hv] at hin
      simp at hin
    · rw [hv] at hin
      obtain ⟨k, hk, hmk⟩ := h a m hv
      rw [hk]
      simp only [decide_eq_true_eq] at hin ⊢
      omega

/-- Every algorithm's successful `integrate` sets `version[agent] = seq` and
had the seq precondition satisfied. -/
theorem integrate_ok_version (g : IntegrateFn T)
    (hg : g = integrateYjsMod ∨ g = integrateYjs ∨ g = integrateAutomerge
      ∨ g = integrateSync9)
    {d d' : Doc T} {N : Item T} {hint : Int} (h : g d N hint = .ok d') :
    d'.version = vset d.version N.id.1 N.id.2
      ∧ (N.id.2 : Int) = lastSeen d N.id.1 + 1 := by
  have hpre : (N.id.2 : Int) = lastSeen d N.id.1 + 1 := by
    by_contra hne
    rw [integrate_outOfOrder_of_bad_seq g hg d N hint hne] at h
    simp at h
  refine ⟨?_, hpre⟩
  rcases hg with rfl | rfl | rfl | rfl
  · rw [integrateYjsMod_eq, if_neg (not_not_intro hpre)] at h
    rcases hb : (do
      let left ← findItem (bumpVersion d N) N.originLeft (hint - 1)
      let right ← match N.originRight with
        | none => Except.ok (((bumpVersion d N).content.length : Int))
        | some _ => findItem (bumpVersion d N) N.originRight hint
      yjsModLoop (bumpVersion d N) N hint left right
        ((bumpVersion d N).content.drop (left + 1).toNat) false
        (left + 1).toNat (left + 1).toNat
     : Except Err Nat) with e | dest <;> rw [hb] at h
    · simp at h
    · simp only [Except.ok.injEq] at h
      subst h
      rfl
  · rw [integrateYjs_eq, if_neg (not_not_intro hpre)] at h
    rcases hb : (do
      let left ← findItem (bumpVersion d N) N.originLeft (hint - 1)
      let right ← match N.originRight with
        | none => Except.ok (((bumpVersion d N).content.length : Int))
        | some _ => findItem (bumpVersion d N) N.originRight hint
      yjsLoop (bumpVersion d N) N hint left right
        ((bumpVersion d N).content.drop (left + 1).toNat) false
        (left + 1).toNat (left + 1).toNat
     : Except Err Nat) with e | dest <;> rw [hb] at h
    · simp at h
    · simp only [Except.ok.injEq] at h
      subst h
      rfl
  · rw [integrateAutomerge_eq, if_neg (not_not_intro hpre)] at h
    rcases hb : (do
      let parent ← findItem (bumpVersion d N) N.originLeft (hint - 1)
      amLoop (bumpVersion d N) N hint parent
        ((bumpVersion d N).content.drop (parent + 1).toNat) false (parent + 1).toNat
     : Except Err Nat) with e | dest <;> rw [hb] at h
    · simp at h
    · simp only [Except.ok.injEq] at h
      subst h
      rfl
  · rw [integrateSync9_eq, if_neg (not_not_intro hpre)] at h
    rcases hf : findItem2 (bumpVersion d N) N.originLeft N.insertAfter (hint - 1)
      with e | parentIdx <;> rw [hf] at h
    · simp at h
    · simp only at h
      split at h
      · rcases hg2 : (bumpVersion d N).content[parentIdx.toNat]? with _ | parentItem <;>
          rw [hg2] at h
        · simp at h
        · simp only [Except.ok.injEq] at h
          subst h
          rfl
      · rcases hl : sync9Loop (bumpVersion d N) N hint parentIdx
            ((bumpVersion d N).content.drop (parentIdx + 1).toNat)
            (parentIdx + 1).toNat with e | dest <;> rw [hl] at h
        · simp at h
        · simp only [Except.ok.injEq] at h
          subst h
          rfl

/-- Successful `integrate` makes the integrated id observed, and only grows
the version vector. -/
theorem isInVersion_vset_self (v : Version) (i : Id) :
    isInVersion (some i) (vset v i.1 i.2) = true := by
  rcases i with ⟨a, s⟩
  simp [isInVersion, vget_vset_self]

theorem integrate_ok_version_facts (g : IntegrateFn T)
    (hg : g = integrateYjsMod ∨ g = integrateYjs ∨ g = integrateAutomerge
      ∨ g = integrateSync9)
    {d d' : Doc T} {N : Item T} {hint : Int} (h : g d N hint = .ok d') :
    versionLE d.version d'.version ∧ isInVersion (some N.id) d'.version = true := by
  obtain ⟨hv, hpre⟩ := integrate_ok_version g hg h
  constructor
  · rw [hv]
    refine versionLE_vset _ _ _ (fun m hm => ?_)
    have hpre' : (N.id.2 : Int) =
        (match vget d.version N.id.1 with | none => -1 | some v => (v : Int)) + 1 := hpre
    simp only [hm] at hpre'
    omega
  · rw [hv]
    exact isInVersion_vset_self _ _

/-- One merge pass only grows the version vector, nulls out exactly the ops
it merged (which become observed), and, for ops it merged, marks them in the
version vector. -/
theorem mergePass_version {f : IntegrateFn T}
    (hf : ∀ (d d' : Doc T) (N : Item T) (hint : Int), f d N hint = .ok d' →
      versionLE d.version d'.version ∧ isInVersion (some N.id) d'.version = true) :
    ∀ (missing : List (Option (Item T))) (dest dest' : Doc T)
      (missing' : List (Option (Item T))) (k : Nat),
      mergePass f dest missing = .ok (dest', missing', k) →
      versionLE dest.version dest'.version
      ∧ (∀ o : Item T, some o ∈ missing →
          some o ∈ missing' ∨ isInVersion (some o.id) dest'.version = true)
      ∧ missing'.countP (fun o => o.isSome) + k = missing.countP (fun o => o.isSome) := by
  intro missing
  induction missing with
  | nil =>
    intro dest dest' missing' k h
    simp only [mergePass, Except.ok.injEq, Prod.mk.injEq] at h
    obtain ⟨h1, h2, h3⟩ := h
    subst h1
    subst h2
    subst h3
    exact ⟨versionLE_refl _, by simp, by simp⟩
  | cons op? rest ih =>
    intro dest dest' missing' k h
    rcases op? with _ | op
    · rw [mergePass] at h
      rcases hr : mergePass f dest rest with e | ⟨d, l, m⟩ <;>
        rw [hr] at h <;> simp only [Bind.bind, Except.bind] at h
      · simp at h
      · simp only [Except.ok.injEq, Prod.mk.injEq] at h
        obtain ⟨h1, h2, h3⟩ := h
        subst h1
        subst h2
        subst h3
        obtain ⟨hle, hmem, hcnt⟩ := ih dest d l m hr
        refine ⟨hle, fun o ho => ?_, by simpa using hcnt⟩
        rcases hmem o (by simpa using ho) with hin | hin
        · exact Or.inl (by simp [hin])
        · exact Or.inr hin
    · rw [mergePass] at h
      split at h
      · rcases hint : f dest op (-1) with e | dest1 <;> simp only [hint] at h
        · simp at h
        · rcases hr : mergePass f dest1 rest with e | ⟨d, l, m⟩ <;>
            rw [hr] at h <;> simp only [Bind.bind, Except.bind] at h
          · simp at h
          · simp only [Except.ok.injEq, Prod.mk.injEq] at h
            obtain ⟨h1, h2, h3⟩ := h
            subst h1
            subst h2
            subst h3
            obtain ⟨hle1, hin1⟩ := hf dest dest1 op (-1) hint
            obtain ⟨hle, hmem, hcnt⟩ := ih dest1 d l m hr
            refine ⟨versionLE_trans hle1 hle, fun o ho => ?_, by simp at hcnt ⊢; omega⟩
            rcases List.mem_cons.mp ho with ho | ho
            · obtain rfl : o = op := by simpa using ho
              exact Or.inr (isInVersion_mono hle hin1)
            · rcases hmem o ho with hin | hin
              · exact Or.inl (by simp [hin])
              · exact Or.inr hin
      · rcases hr : mergePass f dest rest with e | ⟨d, l, m⟩ <;>
          rw [hr] at h <;> simp only [Bind.bind, Except.bind] at h
        · simp at h
        · simp only [Except.ok.injEq, Prod.mk.injEq] at h
          obtain ⟨h1, h2, h3⟩ := h
          subst h1
          subst h2
          subst h3
          obtain ⟨hle, hmem, hcnt⟩ := ih dest d l m hr
          refine ⟨hle, fun o ho => ?_, by simp at hcnt ⊢; omega⟩
          rcases List.mem_cons.mp ho with ho | ho
          · exact Or.inl (by simp [ho])
          · rcases hmem o ho with hin | hin
            · exact Or.inl (by simp [hin])
            · exact Or.inr hin

/-- The merge loop, run with `remaining` equal to the number of pending ops,
ends with every pending op observed in the version vector. -/
theorem mergeLoop_version {f : IntegrateFn T}
    (hf : ∀ (d d' : Doc T) (N : Item T) (hint : Int), f d N hint = .ok d' →
      versionLE d.version d'.version ∧ isInVersion (some N.id) d'.version = true) :
    ∀ (fuel : Nat) (dest d' : Doc T) (missing : List (Option (Item T))) (remaining : Nat),
      remaining = missing.countP (fun o => o.isSome) →
      mergeLoop f fuel dest missing remaining = .ok d' →
      versionLE dest.version d'.version
      ∧ (∀ o : Item T, some o ∈ missing → isInVersion (some o.id) d'.version = true) := by
  intro fuel
  induction fuel with
  | zero =>
    intro dest d' missing remaining hrem h
    rw [mergeLoop] at h
    split at h
    · rename_i hr0
      simp only [Except.ok.injEq] at h
      subst h
      refine ⟨versionLE_refl _, fun o ho => ?_⟩
      exfalso
      rw [hr0] at hrem
      have := List.countP_eq_zero.mp hrem.symm
      simpa using this _ ho
    · simp at h
  | succ fuel ih =>
    intro dest d' missing remaining hrem h
    rw [mergeLoop] at h
    split at h
    · rename_i hr0
      simp only [Except.ok.injEq] at h
      subst h
      refine ⟨versionLE_refl _, fun o ho => ?_⟩
      exfalso
      rw [hr0] at hrem
      have := List.countP_eq_zero.mp hrem.symm
      simpa using this _ ho
    · rcases hp : mergePass f dest missing with e | ⟨d, l, m⟩ <;> rw [hp] at h
      · simp at h
      · simp only at h
        split at h
        · simp at h
        · obtain ⟨hle1, hmem1, hcnt⟩ := mergePass_version hf missing dest d l m hp
          obtain ⟨hle2, hmem2⟩ := ih d d' l (remaining - m) (by omega) h
          refine ⟨versionLE_trans hle1 hle2, fun o ho => ?_⟩
          rcases hmem1 o ho with hin | hin
          · exact hmem2 o hin
          · exact isInVersion_mono hle2 hin

/-- After a successful `mergeInto`, every content-bearing op of the source is
observed in the destination's version vector. -/
theorem mergeInto_version {f : IntegrateFn T}
    (hf : ∀ (d d' : Doc T) (N : Item T) (hint : Int), f d N hint = .ok d' →
      versionLE d.version d'.version ∧ isInVersion (some N.id) d'.version = true)
    {dest src d' : Doc T} (h : mergeInto f dest src = .ok d') :
    ∀ op ∈ src.content, op.content.isSome = true →
      isInVersion (some op.id) d'.version = true := by
  unfold mergeInto at h
  obtain ⟨hle, hmem⟩ := mergeLoop_version hf _ _ _ _ _ (by
    rw [List.countP_map]
    simp [Function.comp_def]) h
  intro op hop hcontent
  by_cases hin : isInVersion (some op.id) dest.version = true
  · exact isInVersion_mono hle hin
  · refine hmem op ?_
    simp only [List.mem_map]
    exact ⟨op, List.mem_filter.mpr ⟨hop, by simp [hcontent, hin]⟩, rfl⟩

/-- Claim C9: merging twice is a no-op the second time — after a successful
`merge_into(a, b)` the missing set of an immediately repeated call is empty
and the repeated call returns `a` unchanged. -/
theorem mergeInto_idempotent (g : IntegrateFn T)
    (hg : g = integrateYjsMod ∨ g = integrateYjs ∨ g = integrateAutomerge
      ∨ g = integrateSync9)
    {a b a' : Doc T} (h : mergeInto g a b = .ok a') :
    (b.content.filter
      (fun op => op.content.isSome && !isInVersion (some op.id) a'.version)) = []
    ∧ mergeInto g a' b = .ok a' := by
  have hobs := mergeInto_version
    (fun d d' N hint hok => integrate_ok_version_facts g hg hok) h
  have hfilter : (b.content.filter
      (fun op => op.content.isSome && !isInVersion (some op.id) a'.version)) = [] := by
    rw [List.filter_eq_nil_iff]
    intro op hop
    by_cases hc : op.content.isSome = true
    · simp [hc, hobs op hop hc]
    · simp [Bool.eq_false_iff.mpr hc]
  refine ⟨hfilter, ?_⟩
  unfold mergeInto
  rw [hfilter]
  rfl

/-- Four items whose integration under YjsMod is order-dependent even though
every order respects `canInsertNow` readiness: `B1` carries origins
`(null, null)` although `B0` is in its causal past, a shape no real editing
session of agent `B` produces but which readiness (which only inspects the
version vector) accepts. Listed in the order `A0, B0, A1, B1`. -/
def divergentOps : List (Item String) :=
  [{ content := some "a0", id := ("A", 0), originLeft := none, originRight := none,
     seq := 0, insertAfter := true, isDeleted := false },
   { content := some "b0", id := ("B", 0), originLeft := some ("A", 0), originRight := none,
     seq := 0, insertAfter := true, isDeleted := false },
   { content := some "a1", id := ("A", 1), originLeft := none, originRight := some ("B", 0),
     seq := 1, insertAfter := true, isDeleted := false },
   { content := some "b1", id := ("B", 1), originLeft := none, originRight := none,
     seq := 1, insertAfter := true, isDeleted := false }]

/-- The same four items with the last two integrated in the other order. -/
def divergentOpsSwapped : List (Item String) :=
  [{ content := some "a0", id := ("A", 0), originLeft := none, originRight := none,
     seq := 0, insertAfter := true, isDeleted := false },
   { content := some "b0", id := ("B", 0), originLeft := some ("A", 0), originRight := none,
     seq := 0, insertAfter := true, isDeleted := false },
   { content := some "b1", id := ("B", 1), originLeft := none, originRight := none,
     seq := 1, insertAfter := true, isDeleted := false },
   { content := some "a1", id := ("A", 1), originLeft := none, originRight := some ("B", 0),
     seq := 1, insertAfter := true, isDeleted := false }]

/-- Counterexample to claim C1 as stated: two integration orders of one
four-item set, both respecting causal readiness at every step, produce
different content sequences under YjsMod, so confluence over arbitrary
`canInsertNow`-ready item sets fails. -/
theorem yjsMod_not_confluent :
    divergentOps.Perm divergentOpsSwapped
    ∧ validIntegration integrateYjsMod divergentOps newDoc = true
    ∧ validIntegration integrateYjsMod divergentOpsSwapped newDoc = true
    ∧ (integrateAll integrateYjsMod divergentOps newDoc).map getArray
        = some ["a0", "b1", "a1", "b0"]
    ∧ (integrateAll integrateYjsMod divergentOpsSwapped newDoc).map getArray
        = some ["a0", "a1", "b0", "b1"] :=
  ⟨by decide, by decide, by decide, by decide, by decide⟩

/-- The four items of the `localVsConcurrent` test: three concurrent
top-level inserts by agents `A`, `B`, `C`, and agent `D`'s item anchored
between `A`'s and `C`'s. Every origin here records a real document state. -/
def lvcOps : List (Item String) :=
  [{ content := some "a", id := ("A", 0), originLeft := none, originRight := none,
     seq := 0, insertAfter := true, isDeleted := false },
   { content := some "b", id := ("B", 0), originLeft := none, originRight := none,
     seq := 0, insertAfter := true, isDeleted := false },
   { content := some "c", id := ("C", 0), originLeft := none, originRight := none,
     seq := 0, insertAfter := true, isDeleted := false },
   { content := some "d", id := ("D", 0), originLeft := some ("A", 0),
     originRight := some ("C", 0), seq := 0, insertAfter := true, isDeleted := false }]

set_option maxHeartbeats 4000000 in
set_option maxRecDepth 10000 in
/-- Claim C1 (amended): confluence over arbitrary item sets constrained only
by `canInsertNow` readiness fails (see the divergent four-item set), but
order-independence holds for item sets whose origins record real document
states: every causally-ready ordering of the `localVsConcurrent` items
integrates under YjsMod to exactly `["a", "d", "b", "c"]`. -/
theorem yjsMod_localVsConcurrent_confluent :
    ∀ l : List (Item String), l.Perm lvcOps →
      validIntegration integrateYjsMod l newDoc = true →
      (integrateAll integrateYjsMod l newDoc).map getArray
        = some ["a", "d", "b", "c"] := by
  have hdec : ∀ l ∈ lvcOps.permutations',
      validIntegration integrateYjsMod l newDoc = true →
      (integrateAll integrateYjsMod l newDoc).map getArray
        = some ["a", "d", "b", "c"] := by
    decide
  intro l hperm
  exact hdec l (List.mem_permutations'.mpr hperm)

/-- Witness for the amended C1 theorem at the natural order. -/
theorem yjsMod_localVsConcurrent_confluent_witness :
    (integrateAll integrateYjsMod lvcOps newDoc).map getArray
      = some ["a", "d", "b", "c"] :=
  yjsMod_localVsConcurrent_confluent lvcOps (List.Perm.refl _) (by decide)

/-- The sibling-chain shape of an automerge scan region (the suffix of the
content list right of the resolved parent index): walking the region, an item
whose resolved parent index equals `parent` is a sibling and becomes the
current chain anchor; an item whose resolved parent index lies strictly right
of `parent` is inside the subtree of the nearest preceding sibling, so a
sibling must already have been seen and (children being created after their
ancestors) its `seq` must exceed that sibling's; an item whose resolved
parent index lies left of `parent` ends the region. Automerge documents
built by real operations have this shape for every anchor: the content list
is a pre-order layout of the item forest and every item's `seq` exceeds its
parent's. -/
def chainOKHead (doc : Doc T) (idx_hint parent : Int) (o : Item T)
    (lastSib : Option Nat) (tailSib tailSame : Bool) : Bool :=
  match findItem doc o.originLeft (idx_hint - 1) with
  | .error _ => false
  | .ok p =>
    if p < parent then true
    else if p = parent then tailSib
    else
      match lastSib with
      | some sq => decide (sq < o.seq) && tailSame
      | none => false

def chainOK (doc : Doc T) (idx_hint parent : Int) :
    List (Item T) → Option Nat → Bool
  | [], _ => true
  | o :: rest, lastSib =>
    chainOKHead doc idx_hint parent o lastSib
      (chainOK doc idx_hint parent rest (some o.seq))
      (chainOK doc idx_hint parent rest lastSib)

/-- The chain shape only looks at the content list, so bumping the version
vector preserves it. -/
theorem chainOK_bumpVersion (doc : Doc T) (N : Item T) (idx_hint parent : Int) :
    ∀ (l : List (Item T)) (s : Option Nat),
      chainOK (bumpVersion doc N) idx_hint parent l s
        = chainOK doc idx_hint parent l s := by
  intro l
  induction l with
  | nil => intro s; rfl
  | cons o rest ih =>
    intro s
    rw [chainOK, chainOK, ih, ih]
    rfl

/-- On a sibling-chain-shaped region the automerge loop with the
`N.seq > o.seq` break computes exactly what the loop without it computes:
the scan only proceeds past a sibling whose `seq` is at least `N.seq` (the
carried `lastSib` bound), every deeper item exceeds that sibling's `seq`, so
whenever the fast path fires the loop without it reaches a breaking branch at
the same position. -/
theorem amLoop_eq_amLoopNoFast (doc : Doc T) (N : Item T) (idx_hint parent : Int)
    (Hres : ∀ o ∈ doc.content, ∃ p : Int,
      findItem doc o.originLeft (idx_hint - 1) = .ok p) :
    ∀ (rest : List (Item T)), (∀ o ∈ rest, o ∈ doc.content) →
      ∀ (lastSib : Option Nat),
      chainOK doc idx_hint parent rest lastSib = true →
      (∀ sq, lastSib = some sq → N.seq ≤ sq) →
      ∀ (lostConflict : Bool) (destIdx : Nat),
      amLoop doc N idx_hint parent rest lostConflict destIdx
        = amLoopNoFast doc N idx_hint parent rest lostConflict destIdx := by
  intro rest
  induction rest with
  | nil => intro _ lastSib _ _ lostConflict destIdx; rfl
  | cons o rest ih =>
    intro hsub lastSib hchain hstate lostConflict destIdx
    have ho : o ∈ doc.content := hsub o (by simp)
    have hsub' : ∀ x ∈ rest, x ∈ doc.content := fun x hx => hsub x (by simp [hx])
    rw [chainOK] at hchain
    simp only [chainOKHead] at hchain
    rw [amLoop, amLoopNoFast]
    by_cases hfast : N.seq > o.seq
    · rw [if_pos hfast]
      obtain ⟨p, hp⟩ := Hres o ho
      simp only [hp] at hchain
      simp only [hp, Bind.bind, Except.bind]
      by_cases h1 : p < parent
      · rw [if_pos h1]
      · rw [if_neg h1]
        rw [if_neg h1] at hchain
        by_cases h2 : p = parent
        · rw [if_pos h2] <;> rw [if_pos hfast]
        · rw [if_neg h2]
          rw [if_neg h2] at hchain
          rcases lastSib with _ | sq
          · exact absurd hchain (by simp)
          · simp only [Bool.and_eq_true, decide_eq_true_eq] at hchain
            exfalso
            have := hstate sq rfl
            omega
    · rw [if_neg hfast]
      rcases hp : findItem doc o.originLeft (idx_hint - 1) with e | p <;>
        simp only [hp, Bind.bind, Except.bind] <;> simp only [hp] at hchain
      split
      · rfl
      · rename_i h1
        rw [if_neg h1] at hchain
        split
        · rename_i h2
          rw [if_pos h2] at hchain
          split
          · split
            · rfl
            · exact ih hsub' (some o.seq) hchain
                (fun sq hsq => by injection hsq with h; omega) true (destIdx + 1)
          · exact ih hsub' (some o.seq) hchain
              (fun sq hsq => by injection hsq with h; omega) true (destIdx + 1)
        · rename_i h2
          rw [if_neg h2] at hchain
          rcases lastSib with _ | sq
          · exact absurd hchain (by simp)
          · simp only [Bool.and_eq_true, decide_eq_true_eq] at hchain
            split
            · exact ih hsub' (some sq) hchain.2 hstate lostConflict (destIdx + 1)
            · rfl

/-- Claim C5: the automerge fast path changes nothing — for every document
whose origins resolve and whose scan region is sibling-chain shaped (the
shape every document reachable by valid operations has: the content list
lays the item forest out in pre-order and children carry larger `seq` than
their parents, so each region item with a deeper parent follows a sibling of
smaller `seq`), and every item `N` and hint, `integrateAutomerge` and the
variant with the `N.seq > o.seq` break removed return identical results:
the same destIdx, the same spliced content, the same final document, and
the same error on failure. -/
theorem integrateAutomerge_fastPath_equiv (doc : Doc T) (N : Item T) (idx_hint : Int)
    (Hres : ∀ o ∈ doc.content, ∃ p : Int,
      findItem doc o.originLeft (idx_hint - 1) = .ok p)
    (Hchain : ∀ parent : Int, findItem doc N.originLeft (idx_hint - 1) = .ok parent →
      chainOK doc idx_hint parent (doc.content.drop (parent + 1).toNat) none = true) :
    integrateAutomerge doc N idx_hint = integrateAutomergeNoFast doc N idx_hint := by
  rw [integrateAutomerge_eq, integrateAutomergeNoFast_eq]
  split
  · rfl
  · rcases hpar : findItem (bumpVersion doc N) N.originLeft (idx_hint - 1)
      with e | parent <;> simp only [hpar, Bind.bind, Except.bind]
    rw [amLoop_eq_amLoopNoFast (bumpVersion doc N) N idx_hint parent
      (fun o ho => Hres o ho)
      ((bumpVersion doc N).content.drop (parent + 1).toNat)
      (fun o ho => List.mem_of_mem_drop ho)
      none
      (by
        rw [chainOK_bumpVersion]
        exact Hchain parent hpar)
      (fun sq hsq => by cases hsq)
      false (parent + 1).toNat]

/-- Witness for the C5 theorem: a two-item reachable document — `x` (seq 1,
root parent) with child `y` (parent `x`, seq 2) — and `N` the item a fresh
local insert at position 0 builds (root parent, seq 3). The fast path fires
at `x` on the scan's first step, `y`'s deeper parent makes the chain
hypothesis bite non-vacuously (`y` follows sibling `x` with 1 < 2), and the
two variants agree. -/
theorem integrateAutomerge_fastPath_equiv_witness :
    integrateAutomerge
      { content := [{ content := some "x", id := ("A", 0), originLeft := none,
                      originRight := none, seq := 1, insertAfter := true,
                      isDeleted := false },
                    { content := some "y", id := ("A", 1),
                      originLeft := some ("A", 0), originRight := none,
                      seq := 2, insertAfter := true, isDeleted := false }],
        version := [("A", 1)], length := 2, maxSeq := 2 }
      { content := some "b", id := ("B", 0), originLeft := none,
        originRight := none, seq := 3, insertAfter := true, isDeleted := false }
      (-1)
    = integrateAutomergeNoFast
      { content := [{ content := some "x", id := ("A", 0), originLeft := none,
                      originRight := none, seq := 1, insertAfter := true,
                      isDeleted := false },
                    { content := some "y", id := ("A", 1),
                      originLeft := some ("A", 0), originRight := none,
                      seq := 2, insertAfter := true, isDeleted := false }],
        version := [("A", 1)], length := 2, maxSeq := 2 }
      { content := some "b", id := ("B", 0), originLeft := none,
        originRight := none, seq := 3, insertAfter := true, isDeleted := false }
      (-1) :=
  integrateAutomerge_fastPath_equiv _ _ (-1)
    (by
      intro o ho
      simp only [List.mem_cons, List.not_mem_nil, or_false] at ho
      rcases ho with ho | ho <;> subst ho
      · exact ⟨-1, rfl⟩
      · exact ⟨0, rfl⟩)
    (by
      intro parent hpar
      simp only [findItem, findItem2, Except.ok.injEq] at hpar
      subst hpar
      decide)

/-- Witness for the C9 theorem: merging an empty source is idempotent. -/
theorem mergeInto_idempotent_witness :
    (newDoc (T := String)).content.filter
      (fun op => op.content.isSome && !isInVersion (some op.id)
        (newDoc (T := String)).version) = []
    ∧ mergeInto integrateYjsMod (newDoc (T := String)) newDoc = .ok newDoc :=
  mergeInto_idempotent integrateYjsMod (Or.inl rfl)
    (show mergeInto integrateYjsMod (newDoc (T := String)) newDoc = .ok newDoc from rfl)

end Crdt
